import Mathlib

/-!
# Interactive shell (`ishell.cpp`): a shallow embedding

A `std::string` is modelled as the list of its bytes (`List Char`), a
`vector<string>` / `list<string>` as a `List`.  Everything the shell asks the
operating system (opening files, `access`, `pipe`, `fork`, the environment) is
read from a `World` record, so every function below is a pure, computable
function of its arguments and of that record.  Loops over an index are written
with the index and a fuel counter that is at least the number of iterations
the C++ loop can make.
-/

namespace IShell

/-- A `std::string`: the sequence of its bytes. -/
abbrev Str := List Char

/-- The answers of the operating system to the calls the shell makes. -/
structure World where
  /-- Result of `open(path, O_RDONLY)`: the descriptor, `none` on failure. -/
  openRead : Str → Option Nat
  /-- Result of `open(path, O_WRONLY | O_CREAT | O_TRUNC, 0644)`. -/
  openTrunc : Str → Option Nat
  /-- Result of `open(path, O_WRONLY | O_CREAT | O_APPEND, 0644)`. -/
  openAppend : Str → Option Nat
  /-- Truth of `access(path, X_OK) == 0`. -/
  access : Str → Bool
  /-- Value of `getenv("PATH")`, `none` for a null pointer. -/
  pathEnv : Option Str
  /-- Truth of `pipe(pipefds + i * 2) < 0` for the `i`-th pipe of a pipeline. -/
  pipeFails : Nat → Bool
  /-- Value returned in the parent by the `k`-th `fork()` of a statement
  (`k` counts from 0): a positive process identifier, or a negative number
  when no process could be created. -/
  fork : Nat → Int
  /-- Value of `getenv("HOME")`, `none` for a null pointer. -/
  homeEnv : Option Str
  /-- The names `readdir` yields for `opendir(path)`, in the order it yields
  them; `none` when `opendir` returns a null pointer. -/
  readdir : Str → Option (List Str)

/-- The `int` a call to `open` returns: the descriptor, or `-1`. -/
def fdOf : Option Nat → Int
  | some fd => (fd : Int)
  | none => -1

/-! ## String helpers of the C and C++ libraries -/

/-- The bytes space and tab, the set written `" \t"` in the source. -/
def blanks : List Char := [' ', '\t']

/-- The C string a `std::string` yields through `c_str()` when it is read by
`strcpy`, `open`, `access` or `execv`: the bytes before the first NUL. -/
def cstr (s : Str) : Str := s.takeWhile (fun c => c != Char.ofNat 0)

/-- The function `s.find_first_not_of(set)`: the first index whose byte is not in `set`;
`none` stands for `string::npos`. -/
def findFirstNotOf (set : List Char) : Str → Option Nat
  | [] => none
  | c :: cs => if set.contains c then (findFirstNotOf set cs).map (· + 1) else some 0

/-- The function `s.find_last_not_of(set)`: the last index whose byte is not in `set`. -/
def findLastNotOf (set : List Char) : Str → Option Nat
  | [] => none
  | c :: cs =>
    match findLastNotOf set cs with
    | some k => some (k + 1)
    | none => if set.contains c then none else some 0

/-- The function `s.substr(pos, len)` for `pos ≤ s.size()`. -/
def substr (s : Str) (pos len : Nat) : Str := (s.drop pos).take len

/-- The function `s.find(pat) != string::npos` for a string pattern. -/
def containsSub (pat s : Str) : Bool := s.tails.any (fun t => pat.isPrefixOf t)

/-- The trimming idiom used by `findExecutablePath`, `executePipedCommands`
and the pipe branch of `executeCommand`: with `start = find_first_not_of(" \t")`
and `end = find_last_not_of(" \t")`, the result is
`substr(start, end - start + 1)` when both are found and `""` otherwise. -/
def trimBoth (s : Str) : Str :=
  match findFirstNotOf blanks s, findLastNotOf blanks s with
  | some start, some stop => substr s start (stop - start + 1)
  | _, _ => []

/-- One call of `strtok_r` on the not yet consumed part `save` of the buffer:
leading delimiters are skipped; `none` (a null pointer) when nothing is left;
otherwise the token is the longest run of non-delimiters, and the saved
position moves past the delimiter that ended it. -/
def strtok_r (delim : List Char) (save : Str) : Option (Str × Str) :=
  let s1 := save.dropWhile (fun c => delim.contains c)
  if s1.isEmpty then none
  else
    some (s1.takeWhile (fun c => !delim.contains c),
          (s1.dropWhile (fun c => !delim.contains c)).drop 1)

/-! ## Tokenization helper (`tokenize`, lines 307-324) -/

/-- The quote rule of `tokenize`: a token of size at least 2 whose first and
last bytes are both `"` or both `'` becomes `t.substr(1, t.size() - 2)`. -/
def stripQuotes (t : Str) : Str :=
  if 2 ≤ t.length ∧
      ((t.head? = some (Char.ofNat 34) ∧ t.getLast? = some (Char.ofNat 34)) ∨
       (t.head? = some (Char.ofNat 39) ∧ t.getLast? = some (Char.ofNat 39))) then
    substr t 1 (t.length - 2)
  else t

/-- The `while (token != nullptr)` loop of `tokenize`; `save` is what
`strtok_r` has not consumed yet and `acc` is `tokens`. -/
def tokenizeLoop (delim : List Char) : Nat → Str → List Str → List Str
  | 0, _, acc => acc
  | fuel + 1, save, acc =>
    match strtok_r delim save with
    | none => acc
    | some (token, save1) => tokenizeLoop delim fuel save1 (acc ++ [stripQuotes token])

/-- The function `tokenize(str, delim)`: the buffer is the `strcpy` of `str.c_str()`; every
token takes at least one byte of it, so `str.size() + 1` rounds suffice. -/
def tokenize (str : Str) (delim : List Char) : List Str :=
  tokenizeLoop delim (str.length + 1) (cstr str) []

/-! ## Executable lookup (`findExecutablePath`, lines 328-363) -/

/-- The two `for` loops of `findExecutablePath` over a list of directories:
the first `dir + "/" + trimmed` that passes `access(…, X_OK)` and does not
contain `Xorg.wrap` is returned; `none` when the loop ends without `return`. -/
def probeDirs (w : World) (trimmed : Str) : List Str → Option Str
  | [] => none
  | dir :: dirs =>
    let fullPath := dir ++ ['/'] ++ trimmed
    if w.access (cstr fullPath) then
      if containsSub "Xorg.wrap".toList fullPath then probeDirs w trimmed dirs
      else some fullPath
    else probeDirs w trimmed dirs

/-- The list `commonDirs` of `findExecutablePath`. -/
def commonDirs : List Str := ["/bin".toList, "/usr/bin".toList, "/usr/local/bin".toList]

/-- The function `findExecutablePath(cmd)`; the empty string is the "not found" answer. -/
def findExecutablePath (w : World) (cmd : Str) : Str :=
  let trimmed := trimBoth cmd
  if trimmed.isEmpty then []
  else if trimmed.contains '/' then trimmed
  else
    match probeDirs w trimmed commonDirs with
    | some p => p
    | none =>
      match w.pathEnv with
      | some pathStr =>
        (match probeDirs w trimmed (tokenize pathStr [':']) with
         | some p => p
         | none => [])
      | none => []

/-! ## I/O redirection helper (`processRedirection`, lines 368-405) -/

/-- The three out-parameters of `processRedirection` after the call:
`tokens` (assigned from `newTokens`), `inputFd` and `outputFd`. -/
structure Redir where
  tokens : List Str
  inputFd : Int
  outputFd : Int
deriving DecidableEq, Repr

/-- The `for (size_t i = 0; i < tokens.size(); i++)` loop of
`processRedirection`, started at index `i` with the accumulated state `st`
(`st.tokens` is `newTokens`).  A branch that executes `i++` in the body
continues at `i + 2`, since the loop header increments once more. -/
def processRedirectionLoop (w : World) (tokens : List Str) : Nat → Nat → Redir → Redir
  | 0, _, st => st
  | fuel + 1, i, st =>
    if h : i < tokens.length then
      if tokens[i] = ['<'] then
        if h1 : i + 1 < tokens.length then
          processRedirectionLoop w tokens fuel (i + 2)
            { st with inputFd := fdOf (w.openRead tokens[i + 1]) }
        else
          processRedirectionLoop w tokens fuel (i + 1) st
      else if tokens[i] = ['>'] then
        if h1 : i + 1 < tokens.length then
          processRedirectionLoop w tokens fuel (i + 2)
            { st with outputFd := fdOf (w.openTrunc tokens[i + 1]) }
        else
          processRedirectionLoop w tokens fuel (i + 1) st
      else if tokens[i] = ['>', '>'] then
        if h1 : i + 1 < tokens.length then
          processRedirectionLoop w tokens fuel (i + 2)
            { st with outputFd := fdOf (w.openAppend tokens[i + 1]) }
        else
          processRedirectionLoop w tokens fuel (i + 1) st
      else
        processRedirectionLoop w tokens fuel (i + 1)
          { st with tokens := st.tokens ++ [tokens[i]] }
    else st

/-- The function `processRedirection(tokens, inputFd, outputFd)`: both descriptors start
at `-1`, `newTokens` starts empty, and the loop runs from index 0. -/
def processRedirection (w : World) (tokens : List Str) : Redir :=
  processRedirectionLoop w tokens tokens.length 0 ⟨[], -1, -1⟩

/-- A token is one of the redirection operators `<`, `>`, `>>`. -/
def isRedirOp (t : Str) : Bool :=
  decide (t = ['<']) || decide (t = ['>']) || decide (t = ['>', '>'])

/-- The specification of the argument list: scan left to right; an operator is
dropped together with the one token after it (when there is one); every other
token is kept. -/
def removeRedirections : List Str → List Str
  | [] => []
  | [t] => if isRedirOp t then [] else [t]
  | t :: u :: rest =>
    if isRedirOp t then removeRedirections rest
    else t :: removeRedirections (u :: rest)

/-! ## What a statement does: processes, events, status -/

/-- Source of a child's standard input once its `dup2` calls are done. -/
inductive StdinSrc
  /-- Nothing was duplicated onto descriptor 0: the shell's own input. -/
  | inherited
  /-- The descriptor `pipefds[i * 2]`, the read end of pipe `i`. -/
  | pipeRead (i : Nat)
  /-- The descriptor a `<` redirection opened. -/
  | file (fd : Int)
deriving DecidableEq, Repr

/-- Destination of a child's standard output once its `dup2` calls are done. -/
inductive StdoutDst
  /-- Nothing was duplicated onto descriptor 1: the shell's own output. -/
  | inherited
  /-- The descriptor `pipefds[i * 2 + 1]`, the write end of pipe `i`. -/
  | pipeWrite (i : Nat)
  /-- The descriptor a `>` or `>>` redirection opened. -/
  | file (fd : Int)
deriving DecidableEq, Repr

/-- A child process at the moment it calls `execv(fullPath, args)`; every
`dup2` is taken to succeed. -/
structure Child where
  /-- The resolved `fullPath`. -/
  path : Str
  /-- The vector `args` without its terminating null: `args[0]` is `fullPath`,
  the rest are `tokens[1..]`. -/
  argv : List Str
  stdin : StdinSrc
  stdout : StdoutDst
deriving DecidableEq, Repr

/-- The observable steps of the shell process, in program order. -/
inductive Event
  /-- A builtin handler is called with `tokens`; `outputFd` is the descriptor
  standard output is switched to around the call (`-1`: not switched). -/
  | handler (name : Str) (tokens : List Str) (outputFd : Int)
  /-- In the parent, `fork()` returned `pid > 0`; the child is `c`. -/
  | spawn (pid : Int) (c : Child)
  /-- In the child (`fork()` returned 0): the image is replaced by `c`. -/
  | exec (c : Child)
  /-- The assignment `fg_pid = pid`. -/
  | setFg (pid : Int)
  /-- The blocking call `waitpid(pid, …)`. -/
  | waitFor (pid : Int)
  /-- The message "Process running in background with PID: pid". -/
  | reportBackground (pid : Int)
  /-- A call of `perror(what)`. -/
  | perror (what : Str)
deriving DecidableEq, Repr

/-- Whether the process is still executing shell code afterwards. -/
inductive Status
  /-- Control returns to the caller. -/
  | running
  /-- The process called `exit(code)`. -/
  | exited (code : Nat)
  /-- The process threw an exception nobody catches (`std::terminate`). -/
  | aborted
  /-- The process image was replaced by `execv` (only in a child). -/
  | replaced
  /-- The code read outside an object (`tokens[0]` of an empty vector, a null
  `getenv` result used as a string, signed overflow): no defined behaviour. -/
  | undefined
deriving DecidableEq, Repr

/-- Events of a piece of code together with the status it ends in. -/
structure Run where
  events : List Event
  status : Status
deriving DecidableEq, Repr

/-! ## External command execution (`executeExternalCommand`, lines 490-545) -/

/-- The `dup2` calls of the child branch of `executeExternalCommand`. -/
def wireSingle (inputFd outputFd : Int) : StdinSrc × StdoutDst :=
  (if inputFd ≠ -1 then StdinSrc.file inputFd else StdinSrc.inherited,
   if outputFd ≠ -1 then StdoutDst.file outputFd else StdoutDst.inherited)

/-- The part of `executeExternalCommand` from `findExecutablePath(tokens[0])`
on (lines 504-545), `tokens` being the list left after the redirections and a
trailing `&` were removed.  The process is forked with `w.fork 0`. -/
def launchExternal (w : World) (inputFd outputFd : Int) (tokens : List Str)
    (background : Bool) : Run :=
  match tokens with
  | [] => ⟨[], .undefined⟩
  | t0 :: rest =>
    let fullPath := findExecutablePath w t0
    if fullPath.isEmpty then ⟨[], .running⟩
    else
      let wires := wireSingle inputFd outputFd
      let child : Child := ⟨fullPath, fullPath :: rest, wires.1, wires.2⟩
      let pid := w.fork 0
      if pid = 0 then ⟨[.exec child], .replaced⟩
      else if pid > 0 then
        if !background then
          ⟨[.spawn pid child, .setFg pid, .waitFor pid, .setFg 0], .running⟩
        else
          ⟨[.spawn pid child, .reportBackground pid], .running⟩
      else ⟨[.perror "fork".toList], .running⟩

/-- The function `executeExternalCommand(tokens, background)`: the early return, the
redirections, the trailing `&` (lines 491-498), then the launch. -/
def executeExternalCommand (w : World) (tokens : List Str) (background : Bool) : Run :=
  if tokens.isEmpty || (tokens.headD []).isEmpty then ⟨[], .running⟩
  else
    let r := processRedirection w tokens
    let amp : Bool := !r.tokens.isEmpty && decide (r.tokens.getLast? = some ['&'])
    launchExternal w r.inputFd r.outputFd (if amp then r.tokens.dropLast else r.tokens)
      (if amp then true else background)

/-! ## Pipeline execution (`executePipedCommands`, lines 549-633) -/

/-- The first loop of `executePipedCommands`: each string is trimmed and kept
when `start` and `end` were found and the result is not empty. -/
def filterSegments : List Str → List Str
  | [] => []
  | s :: rest =>
    match findFirstNotOf blanks s, findLastNotOf blanks s with
    | some start, some stop =>
      let t := substr s start (stop - start + 1)
      if !t.isEmpty then t :: filterSegments rest else filterSegments rest
    | _, _ => filterSegments rest

/-- The four `dup2` blocks of the child branch of `executePipedCommands` for
segment `i` of `n`, in source order: pipe input, pipe output, then the
segment's own input and output descriptors, which overwrite the former. -/
def wireSegment (i n : Nat) (segInputFd segOutputFd : Int) : StdinSrc × StdoutDst :=
  let stdin0 := StdinSrc.inherited
  let stdout0 := StdoutDst.inherited
  let stdin1 := if i ≠ 0 ∧ segInputFd = -1 then StdinSrc.pipeRead (i - 1) else stdin0
  let stdout1 := if i ≠ n - 1 ∧ segOutputFd = -1 then StdoutDst.pipeWrite i else stdout0
  let stdin2 := if segInputFd ≠ -1 then StdinSrc.file segInputFd else stdin1
  let stdout2 := if segOutputFd ≠ -1 then StdoutDst.file segOutputFd else stdout1
  (stdin2, stdout2)

/-- The spawning loop `for (int i = 0; i < n; i++)` of `executePipedCommands`
over the segments from index `i` on; `events` are the steps so far and `pids`
is the vector `pids`.  When the loop ends the parent waits for every entry of
`pids` in order. -/
def pipedLoop (w : World) (n : Nat) :
    List Str → Nat → List Event → List Int → Run
  | [], _, events, pids => ⟨events ++ pids.map Event.waitFor, .running⟩
  | seg :: segs, i, events, pids =>
    let r := processRedirection w (tokenize seg blanks)
    match r.tokens with
    | [] => pipedLoop w n segs (i + 1) events pids
    | t0 :: rest =>
      if t0.isEmpty then pipedLoop w n segs (i + 1) events pids
      else
        let fullPath := findExecutablePath w t0
        if fullPath.isEmpty then pipedLoop w n segs (i + 1) events pids
        else
          let wires := wireSegment i n r.inputFd r.outputFd
          let child : Child := ⟨fullPath, fullPath :: rest, wires.1, wires.2⟩
          let pid := w.fork pids.length
          if pid = 0 then ⟨events ++ [.exec child], .replaced⟩
          else if pid < 0 then ⟨events ++ [.perror "fork".toList], .exited 1⟩
          else pipedLoop w n segs (i + 1) (events ++ [.spawn pid child]) (pids ++ [pid])

/-- The function `executePipedCommands(pipedCommands)`: filter, allocate the `n - 1`
pipes (any failure is `perror("pipe"); exit(EXIT_FAILURE)`), spawn, wait. -/
def executePipedCommands (w : World) (pipedCommands : List Str) : Run :=
  let filtered := filterSegments pipedCommands
  if filtered.isEmpty then ⟨[], .running⟩
  else
    let n := filtered.length
    if (List.range (n - 1)).any w.pipeFails then ⟨[.perror "pipe".toList], .exited 1⟩
    else pipedLoop w n filtered 0 [] []

/-! ## Arithmetic evaluator (lines 410-486) -/

/-- The ways the evaluator does not return a value.  The first three are the
`exit(EXIT_FAILURE)` calls of the source; `overflow` is a `long long`
operation whose result does not fit (undefined in C++); `outOfFuel` is the
recursion counter of this embedding running out. -/
inductive ArithError
  | divisionByZero
  | missingParen
  | invalid
  | overflow
  | outOfFuel
deriving DecidableEq, Repr

/-- The value fits in a `long long`. -/
def inLongLong (v : Int) : Bool := decide (-(2 : Int) ^ 63 ≤ v) && decide (v < (2 : Int) ^ 63)

/-- A value of type `long long`, or `overflow`. -/
def checkLL (v : Int) : Except ArithError Int :=
  if inLongLong v then .ok v else .error .overflow

/-- The function `isspace` in the C locale. -/
def isspace (c : Char) : Bool :=
  c = ' ' || c = '\t' || c = '\n' || c = Char.ofNat 11 || c = Char.ofNat 12 || c = '\r'

/-- The loop `while (i < s.size() && isdigit(s[i]))` of `parseFactor` on the
input from position `i` on: the number so far, the flag `valid`, and the rest
of the input. -/
def digitsLoop : Int → Bool → Str → Except ArithError (Int × Bool × Str)
  | num, valid, [] => .ok (num, valid, [])
  | num, valid, c :: cs =>
    if c.isDigit then
      match checkLL (num * 10 + ((c.toNat : Int) - 48)) with
      | .ok num1 => digitsLoop num1 true cs
      | .error e => .error e
    else .ok (num, valid, c :: cs)

mutual
/-- The function `parseExpression(s, i)`; the string argument is `s` from position `i` on,
the result carries `s` from the new position on. -/
def parseExpression : Nat → Str → Except ArithError (Int × Str)
  | 0, _ => .error .outOfFuel
  | fuel + 1, s =>
    match parseTerm fuel s with
    | .ok (result, s1) => expressionLoop fuel result s1
    | .error e => .error e
/-- The `while (i < s.size())` loop of `parseExpression`. -/
def expressionLoop : Nat → Int → Str → Except ArithError (Int × Str)
  | 0, _, _ => .error .outOfFuel
  | _ + 1, result, [] => .ok (result, [])
  | fuel + 1, result, c :: cs =>
    if c = '+' then
      match parseTerm fuel cs with
      | .ok (t, s1) =>
        (match checkLL (result + t) with
         | .ok r => expressionLoop fuel r s1
         | .error e => .error e)
      | .error e => .error e
    else if c = '-' then
      match parseTerm fuel cs with
      | .ok (t, s1) =>
        (match checkLL (result - t) with
         | .ok r => expressionLoop fuel r s1
         | .error e => .error e)
      | .error e => .error e
    else .ok (result, c :: cs)
/-- The function `parseTerm(s, i)`. -/
def parseTerm : Nat → Str → Except ArithError (Int × Str)
  | 0, _ => .error .outOfFuel
  | fuel + 1, s =>
    match parseFactor fuel s with
    | .ok (result, s1) => termLoop fuel result s1
    | .error e => .error e
/-- The `while (i < s.size())` loop of `parseTerm`. -/
def termLoop : Nat → Int → Str → Except ArithError (Int × Str)
  | 0, _, _ => .error .outOfFuel
  | _ + 1, result, [] => .ok (result, [])
  | fuel + 1, result, c :: cs =>
    if c = '*' then
      match parseFactor fuel cs with
      | .ok (f, s1) =>
        (match checkLL (result * f) with
         | .ok r => termLoop fuel r s1
         | .error e => .error e)
      | .error e => .error e
    else if c = '/' then
      match parseFactor fuel cs with
      | .ok (divisor, s1) =>
        if divisor = 0 then .error .divisionByZero
        else
          (match checkLL (Int.tdiv result divisor) with
           | .ok r => termLoop fuel r s1
           | .error e => .error e)
      | .error e => .error e
    else .ok (result, c :: cs)
/-- The function `parseFactor(s, i)`. -/
def parseFactor : Nat → Str → Except ArithError (Int × Str)
  | 0, _ => .error .outOfFuel
  | fuel + 1, s =>
    let s0 := s.dropWhile isspace
    match s0 with
    | [] => .error .invalid
    | c :: cs =>
      if c = '(' then
        match parseExpression fuel cs with
        | .ok (result, s1) =>
          (match s1 with
           | d :: s2 => if d = ')' then .ok (result, s2) else .error .missingParen
           | [] => .error .missingParen)
        | .error e => .error e
      else
        let negative := decide (c = '-')
        let s1 := if negative then cs else c :: cs
        match digitsLoop 0 false s1 with
        | .ok (num, valid, s2) =>
          if !valid then .error .invalid
          else .ok (if negative then -num else num, s2)
        | .error e => .error e
end

/-- The function `evaluateArithmetic(expr)`: `parseExpression` from position 0; what is
left of the string after it is ignored. -/
def evaluateArithmetic (expr : Str) : Except ArithError Int :=
  match parseExpression (3 * expr.length + 3) expr with
  | .ok (result, _) => .ok result
  | .error e => .error e

/-! ## Builtin handlers: how they end -/

/-- The function `std::stoi(s)`: blanks are skipped, then an optional sign and decimal
digits are read; `none` when an exception is thrown (no digit, or a value
outside `int`). -/
def stoi (s : Str) : Option Int :=
  let s1 := (cstr s).dropWhile isspace
  let negative := decide (s1.head? = some '-')
  let s2 := if s1.head? = some '-' ∨ s1.head? = some '+' then s1.drop 1 else s1
  let ds := s2.takeWhile Char.isDigit
  if ds.isEmpty then none
  else
    let v : Int := ds.foldl (fun a c => a * 10 + ((c.toNat : Int) - 48)) 0
    let r := if negative then -v else v
    if decide (-(2 : Int) ^ 31 ≤ r) && decide (r < (2 : Int) ^ 31) then some r else none

/-- The test of `handleEcho` for an arithmetic token: size at least 4, first
three bytes `$((`, last two bytes `))`. -/
def isArithToken (tok : Str) : Bool :=
  decide (4 ≤ tok.length) && decide (substr tok 0 3 = ['$', '(', '(']) &&
    decide (tok.drop (tok.length - 2) = [')', ')'])

/-- The loop of `handleEcho` over `tokens[1..]`: each arithmetic token is
evaluated; the first evaluation that does not return ends the process. -/
def handleEchoLoop : List Str → Status
  | [] => .running
  | tok :: rest =>
    if isArithToken tok then
      match evaluateArithmetic (substr tok 3 (tok.length - 5)) with
      | .ok _ => handleEchoLoop rest
      | .error .overflow => .undefined
      | .error .outOfFuel => .undefined
      | .error _ => .exited 1
    else handleEchoLoop rest

/-- How `handleEcho(tokens)` ends (the text it prints is not modelled). -/
def handleEcho (tokens : List Str) : Status := handleEchoLoop (tokens.drop 1)

/-- How `handleCd(tokens)` ends: `getenv("HOME")` is assigned to a string when
there is no argument or the argument is `~`, which is undefined for a null
pointer (`getcwd` is taken to succeed). -/
def handleCd (w : World) (tokens : List Str) : Status :=
  if tokens.length = 1 then
    (if w.homeEnv.isSome then .running else .undefined)
  else if tokens.length = 2 then
    (if tokens[1]? = some ['~'] then
      (if w.homeEnv.isSome then .running else .undefined)
    else .running)
  else .running

/-- How `handlePinfo(tokens)` and `handleHistory(tokens)` end: with exactly one
argument it goes through `stoi`, whose exception nobody catches. -/
def handleStoiArg (tokens : List Str) : Status :=
  if tokens.length = 2 then
    (match stoi (tokens.getD 1 []) with
     | some _ => .running
     | none => .aborted)
  else .running

/-! ## Command execution (`executeCommand`, lines 855-951) -/

/-- The trimming at the head of the statement loop: `substr(start)` when
`start` is found, then `substr(0, end + 1)` when `end` is found. -/
def trimStatement (singleCmd : Str) : Str :=
  let s1 :=
    match findFirstNotOf blanks singleCmd with
    | some start => singleCmd.drop start
    | none => singleCmd
  match findLastNotOf blanks s1 with
  | some stop => s1.take (stop + 1)
  | none => s1

/-- The `else` branch of the statement loop for a statement without `|`:
builtin dispatch on `tokens[0]`, or an external command. -/
def dispatchTokens (w : World) (tokens : List Str) : Run :=
  match tokens with
  | [] => ⟨[], .running⟩
  | t0 :: _ =>
    if t0.isEmpty then ⟨[], .running⟩
    else if t0 = "cd".toList then ⟨[.handler t0 tokens (-1)], handleCd w tokens⟩
    else if t0 = "pwd".toList then
      let r := processRedirection w tokens
      ⟨[.handler t0 r.tokens r.outputFd], .running⟩
    else if t0 = "echo".toList then
      let r := processRedirection w tokens
      ⟨[.handler t0 r.tokens r.outputFd], handleEcho r.tokens⟩
    else if t0 = "ls".toList then ⟨[.handler t0 tokens (-1)], .running⟩
    else if t0 = "pinfo".toList then ⟨[.handler t0 tokens (-1)], handleStoiArg tokens⟩
    else if t0 = "search".toList then ⟨[.handler t0 tokens (-1)], .running⟩
    else if t0 = "history".toList then ⟨[.handler t0 tokens (-1)], handleStoiArg tokens⟩
    else if t0 = "exit".toList then ⟨[], .exited 0⟩
    else
      let amp : Bool := !tokens.isEmpty && decide (tokens.getLast? = some ['&'])
      executeExternalCommand w (if amp then tokens.dropLast else tokens) amp

/-- The body of the statement loop for one piece `singleCmd` returned by
`strtok_r(…, ";")`. -/
def runStatement (w : World) (singleCmd : Str) : Run :=
  let cmdStr := trimStatement singleCmd
  if cmdStr.isEmpty then ⟨[], .running⟩
  else if cmdStr.contains '|' then
    let pipedCommands := filterSegments (tokenize cmdStr ['|'])
    if !pipedCommands.isEmpty then executePipedCommands w pipedCommands
    else ⟨[], .running⟩
  else dispatchTokens w (tokenize cmdStr blanks)

/-- The `while (singleCmd != nullptr)` loop of `executeCommand`: the runs of
the statements in order, `j` being the number of the next statement and
`ws j` the answers of the operating system while it runs.  The loop stops
after a statement that does not return. -/
def executeLoop (ws : Nat → World) : Nat → Str → Nat → List Run
  | 0, _, _ => []
  | fuel + 1, save, j =>
    match strtok_r [';'] save with
    | none => []
    | some (singleCmd, save1) =>
      let r := runStatement (ws j) singleCmd
      if r.status = .running then r :: executeLoop ws fuel save1 (j + 1) else [r]

/-- The function `executeCommand(command)`: one run per piece between semicolons. -/
def executeCommand (ws : Nat → World) (command : Str) : List Run :=
  executeLoop ws (command.length + 1) (cstr command) 0

/-! ## Redirection targets, as the specification describes them -/

/-- The operand of the last `<` the scan consumes together with an operand. -/
def inputTarget : List Str → Option Str
  | [] => none
  | [_] => none
  | t :: u :: rest =>
    if isRedirOp t then
      match inputTarget rest with
      | some f => some f
      | none => if t = ['<'] then some u else none
    else inputTarget (u :: rest)

/-- The operand of the last `>` or `>>` the scan consumes together with an
operand, with the flag "the operator is `>>`". -/
def outputTarget : List Str → Option (Bool × Str)
  | [] => none
  | [_] => none
  | t :: u :: rest =>
    if isRedirOp t then
      match outputTarget rest with
      | some f => some f
      | none =>
        if t = ['>'] then some (false, u)
        else if t = ['>', '>'] then some (true, u)
        else none
    else outputTarget (u :: rest)

/-- The segment's own input file: the descriptor of its `<` redirection when
there is one and it opened. -/
def ownInput (w : World) (tokens : List Str) : Option Nat :=
  (inputTarget tokens).bind w.openRead

/-- The segment's own output file: the descriptor of its `>` / `>>`
redirection when there is one and it opened. -/
def ownOutput (w : World) (tokens : List Str) : Option Nat :=
  (outputTarget tokens).bind (fun p => if p.1 then w.openAppend p.2 else w.openTrunc p.2)

/-- The value of `inputFd` the specification gives after scanning `tokens`
when it was `cur` before. -/
def inputFdSpec (w : World) (cur : Int) (tokens : List Str) : Int :=
  match inputTarget tokens with
  | some f => fdOf (w.openRead f)
  | none => cur

/-- The value of `outputFd` the specification gives after scanning `tokens`
when it was `cur` before. -/
def outputFdSpec (w : World) (cur : Int) (tokens : List Str) : Int :=
  match outputTarget tokens with
  | some p => fdOf (if p.1 then w.openAppend p.2 else w.openTrunc p.2)
  | none => cur

/-- The standard input the specification gives segment `i` with token list
`tokens`: its own input file when the `<` redirection opened, otherwise the
read end of pipe `i - 1` when `i > 0`, otherwise the inherited input. -/
def stdinSpec (w : World) (i : Nat) (tokens : List Str) : StdinSrc :=
  match ownInput w tokens with
  | some fd => .file (fd : Int)
  | none => if i > 0 then .pipeRead (i - 1) else .inherited

/-- The standard output the specification gives segment `i` of `n` with token
list `tokens`: its own output file when the `>` / `>>` redirection opened,
otherwise the write end of pipe `i` when `i < n - 1`, otherwise the inherited
output. -/
def stdoutSpec (w : World) (i n : Nat) (tokens : List Str) : StdoutDst :=
  match ownOutput w tokens with
  | some fd => .file (fd : Int)
  | none => if i < n - 1 then .pipeWrite i else .inherited

/-- The child `c` is created by one of the events: spawned (seen from the
parent) or executing (seen from the child itself). -/
def IsChild (c : Child) (events : List Event) : Prop :=
  (∃ pid, Event.spawn pid c ∈ events) ∨ Event.exec c ∈ events

/-! ## The foreground identity `fg_pid` along a run -/

/-- The value of `fg_pid` after the events, starting from `fg` (signal
handlers left aside). -/
def fgAfter : Int → List Event → Int
  | fg, [] => fg
  | _, .setFg p :: es => fgAfter p es
  | fg, _ :: es => fgAfter fg es

/-- For each blocking `waitpid(pid, …)` of the events, in order: the pair of
`pid` and the value `fg_pid` has while the shell blocks in that call. -/
def fgAtWaits : Int → List Event → List (Int × Int)
  | _, [] => []
  | _, .setFg p :: es => fgAtWaits p es
  | fg, .waitFor p :: es => (p, fg) :: fgAtWaits fg es
  | fg, _ :: es => fgAtWaits fg es

/-- The process identifiers of the `spawn` events, in order. -/
def spawnedPids : List Event → List Int
  | [] => []
  | .spawn p _ :: es => p :: spawnedPids es
  | _ :: es => spawnedPids es

/-! ## History (`loadHistory`, `saveHistory`, `addCommandToHistory`, lines 132-166) -/

/-- The constant `MAX_HISTORY_SIZE`. -/
def MAX_HISTORY_SIZE : Nat := 20

/-- The globals `history` and `historyVector` and the contents of the file
`.shell_history`. -/
structure Session where
  history : List Str
  historyVector : List Str
  file : Str
deriving DecidableEq, Repr

/-- One `getline(infile, line)` on the unread part of the file: `none` when
nothing is left (the stream fails); otherwise the bytes before the next
newline, and what follows that newline. -/
def getline (rest : Str) : Option (Str × Str) :=
  if rest.isEmpty then none
  else some (rest.takeWhile (fun c => c != '\n'), (rest.dropWhile (fun c => c != '\n')).drop 1)

/-- The `while (getline(infile, line))` loop of `loadHistory`. -/
def loadHistoryLoop : Nat → Str → List Str → List Str → List Str × List Str
  | 0, _, history, historyVector => (history, historyVector)
  | fuel + 1, rest, history, historyVector =>
    match getline rest with
    | none => (history, historyVector)
    | some (line, rest1) =>
      let history1 := if history.length ≥ MAX_HISTORY_SIZE then history.drop 1 else history
      loadHistoryLoop fuel rest1 (history1 ++ [line]) (historyVector ++ [line])

/-- The function `loadHistory(history)` when the file opens with contents `st.file`. -/
def loadHistory (st : Session) : Session :=
  let r := loadHistoryLoop (st.file.length + 1) st.file st.history st.historyVector
  { st with history := r.1, historyVector := r.2 }

/-- The contents `saveHistory(history)` writes: each entry followed by a
newline (the file is taken to open). -/
def saveHistory : List Str → Str
  | [] => []
  | cmd :: rest => cmd ++ ['\n'] ++ saveHistory rest

/-- The function `addCommandToHistory(history, command)`. -/
def addCommandToHistory (st : Session) (command : Str) : Session :=
  if command.isEmpty then st
  else
    let history1 := if st.history.length ≥ MAX_HISTORY_SIZE then st.history.drop 1 else st.history
    let history2 := history1 ++ [command]
    let vector1 := st.historyVector ++ [command]
    let vector2 := if vector1.length > MAX_HISTORY_SIZE then vector1.drop 1 else vector1
    { history := history2, historyVector := vector2, file := saveHistory history2 }

/-! ## Line editor (`readInput`, lines 206-302): arrow keys and tab -/

/-- The locals `input` and `historyIndex` of `readInput`. -/
structure EditState where
  input : Str
  historyIndex : Nat
deriving DecidableEq, Repr

/-- The state `readInput` starts in. -/
def EditState.start (historyVector : List Str) : EditState := ⟨[], historyVector.length⟩

/-- The UP arrow branch; `none` when `historyVector[historyIndex]` would be
read outside the vector. -/
def keyUp (historyVector : List Str) (st : EditState) : Option EditState :=
  if !historyVector.isEmpty && decide (st.historyIndex > 0) then
    match historyVector[st.historyIndex - 1]? with
    | some entry => some ⟨entry, st.historyIndex - 1⟩
    | none => none
  else some st

/-- The DOWN arrow branch; `none` when `historyVector[historyIndex]` would be
read outside the vector. -/
def keyDown (historyVector : List Str) (st : EditState) : Option EditState :=
  if !historyVector.isEmpty && decide (st.historyIndex < historyVector.length - 1) then
    match historyVector[st.historyIndex + 1]? with
    | some entry => some ⟨entry, st.historyIndex + 1⟩
    | none => none
  else some ⟨[], historyVector.length⟩

/-- An arrow key sequence. -/
inductive Arrow
  | up
  | down
deriving DecidableEq, Repr

/-- The effect of a sequence of arrow keys, first key first. -/
def pressArrows (historyVector : List Str) : List Arrow → EditState → Option EditState
  | [], st => some st
  | .up :: keys, st => (keyUp historyVector st).bind (pressArrows historyVector keys)
  | .down :: keys, st => (keyDown historyVector st).bind (pressArrows historyVector keys)

/-- The function `s.find_last_of(c)` / `s.rfind(c)` for one byte: its last index. -/
def rfindChar (c : Char) : Str → Option Nat
  | [] => none
  | x :: xs =>
    match rfindChar c xs with
    | some k => some (k + 1)
    | none => if x = c then some 0 else none

/-- The function `std::sort` on a vector of strings: insertion into ascending order of
`operator<` on strings (bytewise lexicographic). -/
def sortNames (names : List Str) : List Str :=
  names.insertionSort (fun a b => a ≤ b)

/-- What the TAB branch does: the new `input`, the text echoed for a single
match, and the names listed for several matches. -/
structure TabResult where
  input : Str
  echoed : Str
  listed : List Str
deriving DecidableEq, Repr

/-- The name prefix the TAB branch completes: the part of the last
space-delimited token after its last `/`. -/
def filePrefixOf (input : Str) : Str :=
  let currentToken :=
    match rfindChar ' ' input with
    | none => input
    | some pos => input.drop (pos + 1)
  match rfindChar '/' currentToken with
  | some slashPos => currentToken.drop (slashPos + 1)
  | none => currentToken

/-- The directory the TAB branch lists. -/
def dirPathOf (input : Str) : Str :=
  let currentToken :=
    match rfindChar ' ' input with
    | none => input
    | some pos => input.drop (pos + 1)
  match rfindChar '/' currentToken with
  | some slashPos => currentToken.take (slashPos + 1)
  | none => ['.']

/-- The TAB branch of `readInput`. -/
def tabComplete (w : World) (input : Str) : TabResult :=
  let dirPath := dirPathOf input
  let filePrefix := filePrefixOf input
  let found : List Str :=
    match w.readdir (cstr dirPath) with
    | some entries => entries.filter (fun fname => filePrefix.isPrefixOf fname)
    | none => []
  if found.length = 1 then
    let completion := (found.headD []).drop filePrefix.length
    ⟨input ++ completion, completion, []⟩
  else if found.length > 1 then ⟨input, [], sortNames found⟩
  else ⟨input, [], []⟩

/-! ## Splitting, as the specification describes it -/

/-- The maximal runs of bytes of `s` that are not in `delim`, in order: `s` is
cut at every delimiter and the empty pieces are left out. -/
def runs (delim : List Char) (s : Str) : List Str :=
  (s.splitOnP (fun c => delim.contains c)).filter (fun r => !r.isEmpty)

/-- The tokens successive calls of `strtok_r` return on the buffer `save`,
until it returns a null pointer (at most `fuel` calls). -/
def strtokAll (delim : List Char) : Nat → Str → List Str
  | 0, _ => []
  | fuel + 1, save =>
    match strtok_r delim save with
    | none => []
    | some (token, save1) => token :: strtokAll delim fuel save1

/-- The quote rule in the words of the specification: a run of length at least
2 whose first and last bytes are both `"` or both `'` loses exactly those two
bytes; every other run is unchanged. -/
def unquote (r : Str) : Str :=
  if 2 ≤ r.length ∧
      ((r.head? = some (Char.ofNat 34) ∧ r.getLast? = some (Char.ofNat 34)) ∨
       (r.head? = some (Char.ofNat 39) ∧ r.getLast? = some (Char.ofNat 39))) then
    r.tail.dropLast
  else r

/-! ## Executable lookup, as the specification describes it -/

/-- The first of the paths `d + "/" + c`, for `d` running through `dirs` in
order, that is executable and does not contain `Xorg.wrap`; the empty string
when there is none. -/
def firstExecutable (w : World) (dirs : List Str) (c : Str) : Str :=
  ((dirs.map (fun d => d ++ ['/'] ++ c)).find?
    (fun p => w.access p && !containsSub "Xorg.wrap".toList p)).getD []

/-- The directories of the colon-delimited `PATH`: its pieces between colons. -/
def colonDirs (w : World) : List Str :=
  match w.pathEnv with
  | some pathStr => pathStr.splitOnP (fun c => c == ':')
  | none => []

/-- The directories `findExecutablePath` takes from `PATH`: the non-empty
pieces between colons, a piece wrapped in matching quotes taken without them. -/
def pathDirs (w : World) : List Str :=
  match w.pathEnv with
  | some pathStr => (runs [':'] (cstr pathStr)).map unquote
  | none => []

/-! ## Arithmetic expressions, as the specification describes them -/

/-- The four binary operators. -/
inductive BinOp
  | add
  | sub
  | mul
  | div
deriving DecidableEq, Repr

/-- The byte an operator is written with. -/
def BinOp.char : BinOp → Char
  | .add => '+'
  | .sub => '-'
  | .mul => '*'
  | .div => '/'

/-- The operators `*` and `/`, which bind tighter than `+` and `-`. -/
def BinOp.isMul : BinOp → Bool
  | .mul => true
  | .div => true
  | _ => false

/-- An arithmetic expression: a decimal literal with an optional minus, a
parenthesised expression, or a binary operation. -/
inductive AExpr
  | lit (negative : Bool) (digits : Str)
  | paren (e : AExpr)
  | bin (op : BinOp) (l r : AExpr)
deriving DecidableEq, Repr

/-- The binding level of the outermost construct: 0 for a literal or a
parenthesis, 1 for `*` and `/`, 2 for `+` and `-`. -/
def AExpr.level : AExpr → Nat
  | .lit _ _ => 0
  | .paren _ => 0
  | .bin op _ _ => if op.isMul then 1 else 2

/-- The tree is the reading of its text under the usual rules: literals are
non-empty digit strings; the right operand of an operator binds tighter than
the operator (operators of equal precedence associate to the left), and the
left operand of `*` or `/` is not a sum or difference. -/
def AExpr.wellFormed : AExpr → Bool
  | .lit _ digits => !digits.isEmpty && digits.all Char.isDigit
  | .paren e => e.wellFormed
  | .bin op l r =>
    l.wellFormed && r.wellFormed &&
      (if op.isMul then decide (l.level ≤ 1) && decide (r.level = 0)
       else decide (r.level ≤ 1))

/-- The text of the expression, without whitespace. -/
def AExpr.text : AExpr → Str
  | .lit negative digits => (if negative then ['-'] else []) ++ digits
  | .paren e => ['('] ++ e.text ++ [')']
  | .bin op l r => l.text ++ [op.char] ++ r.text

/-- The number a string of decimal digits denotes. -/
def decimalValue (digits : Str) : Int :=
  digits.foldl (fun a c => a * 10 + ((c.toNat : Int) - 48)) 0

/-- The value of the expression; division truncates toward zero. -/
def AExpr.value : AExpr → Int
  | .lit negative digits => if negative then -decimalValue digits else decimalValue digits
  | .paren e => e.value
  | .bin .add l r => l.value + r.value
  | .bin .sub l r => l.value - r.value
  | .bin .mul l r => l.value * r.value
  | .bin .div l r => Int.tdiv l.value r.value

/-- No divisor is zero and every intermediate value (the magnitude of a
literal, the result of an operation) fits in a signed 64-bit integer. -/
def AExpr.safe : AExpr → Bool
  | .lit _ digits => inLongLong (decimalValue digits)
  | .paren e => e.safe
  | .bin op l r =>
    l.safe && r.safe && (decide (op ≠ .div) || decide (r.value ≠ 0)) &&
      inLongLong (AExpr.value (.bin op l r))

/-- The body of `parseTerm`: a factor, then the loop over `*` and `/`. -/
def termFrom (fuel : Nat) (s : Str) : Except ArithError (Int × Str) :=
  match parseFactor fuel s with
  | .ok (result, s1) => termLoop fuel result s1
  | .error e => .error e

/-- The body of `parseExpression`: a term, then the loop over `+` and `-`. -/
def expressionFrom (fuel : Nat) (s : Str) : Except ArithError (Int × Str) :=
  match parseTerm fuel s with
  | .ok (result, s1) => expressionLoop fuel result s1
  | .error e => .error e

/-- The string does not start with a decimal digit. -/
def NoDigitHead (rest : Str) : Prop := ∀ c ∈ rest.head?, c.isDigit = false

/-- The string does not start with `*` or `/`. -/
def NoMulHead (rest : Str) : Prop := ∀ c ∈ rest.head?, c ≠ '*' ∧ c ≠ '/'

/-- The string does not start with `+` or `-`. -/
def NoAddHead (rest : Str) : Prop := ∀ c ∈ rest.head?, c ≠ '+' ∧ c ≠ '-'

/-- The function `parseFactor` reads the text of `e` and returns its value. -/
def FactorReads (e : AExpr) : Prop :=
  ∀ (rest : Str) (fuel : Nat), NoDigitHead rest →
    3 * (e.text ++ rest).length + 1 ≤ fuel →
    parseFactor fuel (e.text ++ rest) = .ok (e.value, rest)

/-- The body of `parseTerm`, started on the text of `e`, reaches its loop with
the value of `e` and the input that follows the text. -/
def TermChainReads (e : AExpr) : Prop :=
  ∀ (rest : Str) (fuel : Nat), NoDigitHead rest →
    3 * (e.text ++ rest).length + 1 ≤ fuel →
    ∃ fuel1, 3 * rest.length + 2 ≤ fuel1
      ∧ termFrom fuel (e.text ++ rest) = termLoop fuel1 e.value rest

/-- The body of `parseExpression`, started on the text of `e`, reaches its
loop with the value of `e` and the input that follows the text. -/
def ExprChainReads (e : AExpr) : Prop :=
  ∀ (rest : Str) (fuel : Nat), NoDigitHead rest → NoMulHead rest →
    3 * (e.text ++ rest).length + 2 ≤ fuel →
    ∃ fuel1, 3 * rest.length + 3 ≤ fuel1
      ∧ expressionFrom fuel (e.text ++ rest) = expressionLoop fuel1 e.value rest

/-- The function `parseTerm` reads the text of `e` and returns its value. -/
def TermReads (e : AExpr) : Prop :=
  ∀ (rest : Str) (fuel : Nat), NoDigitHead rest → NoMulHead rest →
    3 * (e.text ++ rest).length + 2 ≤ fuel →
    parseTerm fuel (e.text ++ rest) = .ok (e.value, rest)

/-- The function `parseExpression` reads the text of `e` and returns its
value. -/
def ExpressionReads (e : AExpr) : Prop :=
  ∀ (rest : Str) (fuel : Nat), NoDigitHead rest → NoMulHead rest → NoAddHead rest →
    3 * (e.text ++ rest).length + 3 ≤ fuel →
    parseExpression fuel (e.text ++ rest) = .ok (e.value, rest)

/-! ## Statements of a line -/

/-- What the body of the statement loop hands on for the piece `singleCmd`:
the trimmed statement `cmdStr` when the body reaches a builtin branch,
`executeExternalCommand` or `executePipedCommands`; nothing when it ends before
(`cmdStr.empty()`, an empty `pipedCommands`, or `tokens.empty() ||
tokens[0].empty()`). -/
def handedOver (singleCmd : Str) : Option Str :=
  let cmdStr := trimStatement singleCmd
  if cmdStr.isEmpty then none
  else if cmdStr.contains '|' then
    (if !(filterSegments (tokenize cmdStr ['|'])).isEmpty then some cmdStr else none)
  else
    match tokenize cmdStr blanks with
    | [] => none
    | t0 :: _ => if t0.isEmpty then none else some cmdStr

/-- The statement loop of `executeCommand`, recording for each piece the
statement it hands on, if any; it runs and stops exactly as `executeLoop`. -/
def executedLoop (ws : Nat → World) : Nat → Str → Nat → List Str
  | 0, _, _ => []
  | fuel + 1, save, j =>
    match strtok_r [';'] save with
    | none => []
    | some (singleCmd, save1) =>
      let r := runStatement (ws j) singleCmd
      if r.status = .running then
        (handedOver singleCmd).toList ++ executedLoop ws fuel save1 (j + 1)
      else (handedOver singleCmd).toList

/-- The statements `executeCommand(command)` hands to a builtin branch, to
`executeExternalCommand` or to `executePipedCommands`, in order. -/
def executedStatements (ws : Nat → World) (command : Str) : List Str :=
  executedLoop ws (command.length + 1) (cstr command) 0

/-- The string without its leading and trailing spaces and tabs. -/
def trimSpec (s : Str) : Str :=
  (s.dropWhile (fun c => blanks.contains c)).rdropWhile (fun c => blanks.contains c)

/-- The statements of a line according to the specification: its pieces
between semicolons, each trimmed, the empty ones dropped. -/
def statementsSpec (line : Str) : List Str :=
  ((line.splitOnP (fun c => c == ';')).map trimSpec).filter (fun p => !p.isEmpty)

/-- The guard of the statement loop, on a trimmed statement: with a `|`, one
of the segments between bars (quotes around a whole segment removed) holds a
byte other than space and tab; without a `|`, the first token (quotes around
it removed) is not empty. -/
def reachesExecution (stmt : Str) : Bool :=
  if stmt.contains '|' then
    ((runs ['|'] stmt).map unquote).any (fun seg => seg.any (fun c => !blanks.contains c))
  else
    match (runs blanks stmt).map unquote with
    | [] => false
    | t0 :: _ => !t0.isEmpty

/-! ## The children of a pipeline, as the specification describes them -/

/-- The children the events create, in order: those of the `spawn` events
(seen from the parent) and of the `exec` event (seen from the child itself). -/
def childrenOf : List Event → List Child
  | [] => []
  | .spawn _ c :: es => c :: childrenOf es
  | .exec c :: es => c :: childrenOf es
  | _ :: es => childrenOf es

/-- The child the specification gives segment `i` of `n` with text `seg`: no
child when nothing is left after the redirections are removed, when token 0 is
empty or when no executable is found; otherwise the resolved path, that path
followed by the remaining arguments, and the wiring of `stdinSpec` and
`stdoutSpec` for the index `i`. -/
def segmentChild (w : World) (n i : Nat) (seg : Str) : Option Child :=
  match removeRedirections (tokenize seg blanks) with
  | [] => none
  | t0 :: rest =>
    if t0.isEmpty then none
    else if (findExecutablePath w t0).isEmpty then none
    else
      some ⟨findExecutablePath w t0, findExecutablePath w t0 :: rest,
        stdinSpec w i (tokenize seg blanks), stdoutSpec w i n (tokenize seg blanks)⟩

/-- The children of the segments `segs`, numbered from `i` on, in order. -/
def segmentChildren (w : World) (n : Nat) (segs : List Str) (i : Nat) : List Child :=
  (segs.enumFrom i).filterMap (fun p => segmentChild w n p.1 p.2)

/-- The children that come into being when the processes `children` are forked
one after the other, `k` forks having been made before: creation goes on while
`fork` returns a positive identifier; a `fork` that returns 0 is the child
itself, which is the last one it sees; a `fork` that fails creates nothing and
ends the loop. -/
def createdChildren (w : World) : List Child → Nat → List Child
  | [], _ => []
  | c :: cs, k =>
    if w.fork k = 0 then [c]
    else if w.fork k < 0 then []
    else c :: createdChildren w cs (k + 1)

/-! ## Concrete worlds and inputs used to evaluate the code -/

/-- A world in which `/bin/ls`, `/bin/cat` and `/bin/sleep` are executable,
every file opens, every pipe is allocated and the `k`-th fork of a statement
yields process `100 + k`. -/
def demoWorld : World where
  openRead := fun _ => some 3
  openTrunc := fun _ => some 4
  openAppend := fun _ => some 5
  access := fun p => p = "/bin/ls".toList || p = "/bin/cat".toList || p = "/bin/sleep".toList
  pathEnv := none
  pipeFails := fun _ => false
  fork := fun k => 100 + (k : Int)
  homeEnv := some "/home/user".toList
  readdir := fun _ => some ["foo.txt".toList, "foobar.txt".toList, "bar.txt".toList]

/-- The world `demoWorld`, except that no pipe can be allocated. -/
def noPipeWorld : World := { demoWorld with pipeFails := fun _ => true }

/-- A two-segment pipeline whose second segment redirects its output. -/
def demoPipeline : List Str := ["sleep 1".toList, "cat > out".toList]

/-- The second child of `demoPipeline` in `demoWorld`. -/
def demoChild : Child :=
  ⟨"/bin/cat".toList, ["/bin/cat".toList], .pipeRead 0, .file 4⟩

/-- The first child of `demoPipeline` in `demoWorld`. -/
def demoFirstChild : Child :=
  ⟨"/bin/sleep".toList, ["/bin/sleep".toList, "1".toList], .inherited, .pipeWrite 0⟩

/-- A history file of 21 lines: `old` followed by twenty times `ls`. -/
def longHistory : List Str := "old".toList :: List.replicate 20 "ls".toList

/-- A world whose `PATH` is the single entry `"/opt"`, written with its double
quotes, and in which only `/opt/tool` is executable. -/
def quotedPathWorld : World :=
  { demoWorld with
    pathEnv := some ([Char.ofNat 34] ++ "/opt".toList ++ [Char.ofNat 34])
    access := fun p => p = "/opt/tool".toList }

/-- A world whose `PATH` is `/opt:/usr/games` and in which `/usr/games/tool`
and `/opt/Xorg.wrap/tool` are executable. -/
def gamesWorld : World :=
  { demoWorld with
    pathEnv := some "/opt/Xorg.wrap:/usr/games".toList
    access := fun p => p = "/usr/games/tool".toList || p = "/opt/Xorg.wrap/tool".toList }

/-- The expression `2+3*4`. -/
def sumOfProduct : AExpr :=
  .bin .add (.lit false ['2']) (.bin .mul (.lit false ['3']) (.lit false ['4']))

/-- The expression `8-3-2`. -/
def leftDifference : AExpr :=
  .bin .sub (.bin .sub (.lit false ['8']) (.lit false ['3'])) (.lit false ['2'])

/-- The expression `(2+3)*4`. -/
def groupedProduct : AExpr :=
  .bin .mul (.paren (.bin .add (.lit false ['2']) (.lit false ['3']))) (.lit false ['4'])

/-- The expression `-7/2`. -/
def negativeQuotient : AExpr :=
  .bin .div (.lit true ['7']) (.lit false ['2'])

/-! # Theorems -/

/-! ## Facts about `processRedirection` -/

theorem removeRedirections_cons_op {t : Str} (h : isRedirOp t = true) (rest : List Str) :
    removeRedirections (t :: rest) = removeRedirections (rest.drop 1) := by
  cases rest with
  | nil => simp [removeRedirections, h]
  | cons u rest => simp [removeRedirections, h]

theorem removeRedirections_cons_keep {t : Str} (h : isRedirOp t = false) (rest : List Str) :
    removeRedirections (t :: rest) = t :: removeRedirections rest := by
  cases rest with
  | nil => simp [removeRedirections, h]
  | cons u rest => simp [removeRedirections, h]

/-- Loop invariant of `processRedirection`: from index `i` on, the loop appends
to `newTokens` the specified scan of the remaining tokens. -/
theorem processRedirectionLoop_tokens (w : World) (tokens : List Str) :
    ∀ (fuel i : Nat) (st : Redir), tokens.length ≤ i + fuel →
      (processRedirectionLoop w tokens fuel i st).tokens
        = st.tokens ++ removeRedirections (tokens.drop i) := by
  intro fuel
  induction fuel with
  | zero =>
    intro i st h
    have : tokens.drop i = [] := List.drop_eq_nil_of_le (by omega)
    simp [processRedirectionLoop, this, removeRedirections]
  | succ fuel ih =>
    intro i st h
    unfold processRedirectionLoop
    by_cases hi : i < tokens.length
    · have hd : tokens.drop i = tokens[i] :: tokens.drop (i + 1) :=
        List.drop_eq_getElem_cons hi
      have hdd : (tokens.drop (i + 1)).drop 1 = tokens.drop (i + 2) := by
        simp [List.drop_drop]
      have hlast : ¬ i + 1 < tokens.length → tokens.drop (i + 1) = [] := fun hn =>
        List.drop_eq_nil_of_le (by omega)
      rw [dif_pos hi, hd]
      by_cases h1 : tokens[i] = ['<']
      · have hop : isRedirOp tokens[i] = true := by simp [isRedirOp, h1]
        rw [if_pos h1, removeRedirections_cons_op hop, hdd]
        by_cases h2 : i + 1 < tokens.length
        · rw [dif_pos h2, ih (i + 2) _ (by omega)]
        · rw [dif_neg h2, ih (i + 1) _ (by omega)]
          have e2 : tokens.drop (i + 2) = [] := List.drop_eq_nil_of_le (by omega)
          rw [hlast h2, e2]
      · rw [if_neg h1]
        by_cases h3 : tokens[i] = ['>']
        · have hop : isRedirOp tokens[i] = true := by simp [isRedirOp, h3]
          rw [if_pos h3, removeRedirections_cons_op hop, hdd]
          by_cases h2 : i + 1 < tokens.length
          · rw [dif_pos h2, ih (i + 2) _ (by omega)]
          · rw [dif_neg h2, ih (i + 1) _ (by omega)]
            have e2 : tokens.drop (i + 2) = [] := List.drop_eq_nil_of_le (by omega)
            rw [hlast h2, e2]
        · rw [if_neg h3]
          by_cases h4 : tokens[i] = ['>', '>']
          · have hop : isRedirOp tokens[i] = true := by simp [isRedirOp, h4]
            rw [if_pos h4, removeRedirections_cons_op hop, hdd]
            by_cases h2 : i + 1 < tokens.length
            · rw [dif_pos h2, ih (i + 2) _ (by omega)]
            · rw [dif_neg h2, ih (i + 1) _ (by omega)]
              have e2 : tokens.drop (i + 2) = [] := List.drop_eq_nil_of_le (by omega)
              rw [hlast h2, e2]
          · have hop : isRedirOp tokens[i] = false := by simp [isRedirOp, h1, h3, h4]
            rw [if_neg h4, removeRedirections_cons_keep hop, ih (i + 1) _ (by omega)]
            simp
    · rw [dif_neg hi]
      have : tokens.drop i = [] := List.drop_eq_nil_of_le (by omega)
      simp [this, removeRedirections]

/-- The token list `processRedirection` leaves is the specified scan. -/
theorem processRedirection_tokens_eq (w : World) (tokens : List Str) :
    (processRedirection w tokens).tokens = removeRedirections tokens := by
  unfold processRedirection
  rw [processRedirectionLoop_tokens w tokens tokens.length 0 _ (by omega)]
  simp

/-- No redirection operator survives the specified scan. -/
theorem removeRedirections_no_operator :
    ∀ (n : Nat) (tokens : List Str), tokens.length ≤ n →
      ∀ t ∈ removeRedirections tokens, isRedirOp t = false := by
  intro n
  induction n with
  | zero =>
    intro tokens h t ht
    have : tokens = [] := List.length_eq_zero.mp (by omega)
    subst this
    simp [removeRedirections] at ht
  | succ n ih =>
    intro tokens h t ht
    match tokens, h, ht with
    | [], _, ht => simp [removeRedirections] at ht
    | [a], _, ht =>
      by_cases ha : isRedirOp a = true
      · simp [removeRedirections, ha] at ht
      · simp only [removeRedirections, ha, Bool.false_eq_true, if_false,
          List.mem_singleton] at ht
        subst ht
        simpa using ha
    | a :: b :: rest, h, ht =>
      by_cases ha : isRedirOp a = true
      · simp only [removeRedirections, ha, if_true] at ht
        exact ih rest (by simp only [List.length_cons] at h; omega) t ht
      · simp only [removeRedirections, ha, Bool.false_eq_true, if_false,
          List.mem_cons] at ht
        rcases ht with ht | ht
        · subst ht; simpa using ha
        · exact ih (b :: rest) (by simp only [List.length_cons] at h ⊢; omega) t ht

/-- No redirection operator is left in the token list by `processRedirection`
(the list given to `handlePwd` and `handleEcho`, and from which the argument
vector of an external command or pipeline segment is built). -/
theorem processRedirection_no_operator (w : World) (tokens : List Str) :
    ∀ t ∈ (processRedirection w tokens).tokens, isRedirOp t = false := by
  rw [processRedirection_tokens_eq]
  exact removeRedirections_no_operator tokens.length tokens (Nat.le_refl _)

/-- C1: for every token list (and whatever the `open` calls return), the list
left in `tokens` by `processRedirection` is the input scanned left to right
with each `<`, `>`, `>>` removed together with the one token that follows it
(when there is one, even if that token is itself an operator), all other
tokens kept in their order. -/
theorem processRedirection_tokens (w : World) (tokens : List Str) :
    (processRedirection w tokens).tokens = removeRedirections tokens
      ∧ removeRedirections [['<'], ['>'], ['a'], ['>', '>']] = [['a']] :=
  ⟨processRedirection_tokens_eq w tokens, by decide⟩

/-! ## Redirection operators reaching a builtin -/

/-- C2 (the code at `ls > out.txt`): in every world the handler `handleLs` is
called with the token list `ls`, `>`, `out.txt`; the redirection operator is
still in the argument list, and no descriptor is switched. -/
theorem executeCommand_ls_keeps_redirection (ws : Nat → World) :
    executeCommand ws "ls > out.txt".toList
      = [⟨[.handler "ls".toList ["ls".toList, ['>'], "out.txt".toList] (-1)],
          .running⟩] := by
  rfl

/-! ## A trailing `&` on a pipeline -/

/-- C3 (the code at `sleep 1 | cat &`): the last segment is executed with the
argument `&`, and the shell waits for both processes. -/
theorem executeCommand_pipeline_ampersand :
    executeCommand (fun _ => demoWorld) "sleep 1 | cat &".toList
      = [⟨[.spawn 100 ⟨"/bin/sleep".toList, ["/bin/sleep".toList, "1".toList],
              .inherited, .pipeWrite 0⟩,
           .spawn 101 ⟨"/bin/cat".toList, ["/bin/cat".toList, "&".toList],
              .pipeRead 0, .inherited⟩,
           .waitFor 100, .waitFor 101], .running⟩] := by
  decide

/-! ## History -/

/-- One append keeps the newest `MAX_HISTORY_SIZE` entries. -/
theorem addCommandToHistory_history (st : Session) (c : Str) (hc : c ≠ [])
    (hlen : st.history.length ≤ MAX_HISTORY_SIZE) :
    (addCommandToHistory st c).history
      = (st.history ++ [c]).drop ((st.history ++ [c]).length - MAX_HISTORY_SIZE) := by
  have hne : c.isEmpty = false := by cases c <;> simp_all
  simp only [addCommandToHistory, hne, Bool.false_eq_true, if_false]
  by_cases h : st.history.length ≥ MAX_HISTORY_SIZE
  · have hl : st.history.length = MAX_HISTORY_SIZE := by omega
    have h1 : (st.history ++ [c]).length - MAX_HISTORY_SIZE = 1 := by
      simp [hl]
    rw [if_pos h, h1]
    cases hh : st.history with
    | nil => rw [hh] at hl; simp [MAX_HISTORY_SIZE] at hl
    | cons a t => simp
  · have h1 : (st.history ++ [c]).length - MAX_HISTORY_SIZE = 0 := by
      simp; omega
    rw [if_neg h, h1]
    simp

/-- Keeping the newest `N` entries commutes with appending. -/
theorem drop_newest_append {α : Type} (l m : List α) (N : Nat) :
    (l.drop (l.length - N) ++ m).drop ((l.drop (l.length - N) ++ m).length - N)
      = (l ++ m).drop ((l ++ m).length - N) := by
  have ha : l.length - N ≤ l.length := Nat.sub_le _ _
  have h2 : (l ++ m).drop (l.length - N) = l.drop (l.length - N) ++ m :=
    List.drop_append_of_le_length ha
  have hl : (l.drop (l.length - N)).length = l.length - (l.length - N) :=
    List.length_drop _ _
  have h1 : (l ++ m).length - N
      = (l.length - N) + ((l.drop (l.length - N) ++ m).length - N) := by
    rw [List.length_append, List.length_append, hl]; omega
  rw [h1, ← List.drop_drop, h2]

/-- Appending a sequence of non-empty commands to a history within capacity
keeps the newest `MAX_HISTORY_SIZE` entries of the concatenation. -/
theorem foldl_addCommandToHistory_history (cmds : List Str) :
    ∀ st : Session, st.history.length ≤ MAX_HISTORY_SIZE → (∀ c ∈ cmds, c ≠ []) →
      (cmds.foldl addCommandToHistory st).history
        = (st.history ++ cmds).drop ((st.history ++ cmds).length - MAX_HISTORY_SIZE) := by
  induction cmds with
  | nil =>
    intro st hlen _
    have : st.history.length - MAX_HISTORY_SIZE = 0 := by omega
    simp [this]
  | cons c cmds ih =>
    intro st hlen hne
    have hc : c ≠ [] := hne c (by simp)
    have hstep := addCommandToHistory_history st c hc hlen
    have hlen1 : (addCommandToHistory st c).history.length ≤ MAX_HISTORY_SIZE := by
      rw [hstep]; simp; omega
    rw [List.foldl_cons, ih _ hlen1 (fun x hx => hne x (by simp [hx])), hstep,
      drop_newest_append]
    simp

/-- C4: starting from an empty history, after `addCommandToHistory` is called
with a sequence of `n` non-empty commands the history list is the last
`min n 20` of them, oldest first; it holds at most `MAX_HISTORY_SIZE = 20`
entries; and a call with the empty command changes nothing. -/
theorem history_after_appends (st : Session) (cmds : List Str)
    (hst : st.history = []) (hne : ∀ c ∈ cmds, c ≠ []) :
    (cmds.foldl addCommandToHistory st).history
        = cmds.drop (cmds.length - min cmds.length 20)
      ∧ (cmds.foldl addCommandToHistory st).history.length = min cmds.length 20
      ∧ (cmds.foldl addCommandToHistory st).history.length ≤ MAX_HISTORY_SIZE
      ∧ MAX_HISTORY_SIZE = 20
      ∧ ∀ s : Session, addCommandToHistory s [] = s := by
  have key := foldl_addCommandToHistory_history cmds st (by simp [hst]) hne
  rw [hst] at key
  simp only [List.nil_append] at key
  have e : cmds.length - min cmds.length 20 = cmds.length - MAX_HISTORY_SIZE := by
    simp only [MAX_HISTORY_SIZE]; omega
  refine ⟨by rw [key, e], ?_, ?_, rfl, fun s => rfl⟩
  · rw [key, List.length_drop]; simp only [MAX_HISTORY_SIZE]; omega
  · rw [key, List.length_drop]; simp only [MAX_HISTORY_SIZE]; omega

/-- C4 at a concrete input: 22 appended commands leave the last 20. -/
theorem history_after_appends_witness :
    ((List.replicate 21 ['a'] ++ [['b']]).foldl addCommandToHistory ⟨[], [], []⟩).history
        = (List.replicate 21 ['a'] ++ [['b']]).drop
            ((List.replicate 21 ['a'] ++ [['b']]).length
              - min (List.replicate 21 ['a'] ++ [['b']]).length 20) :=
  (history_after_appends ⟨[], [], []⟩ (List.replicate 21 ['a'] ++ [['b']]) rfl
    (by decide)).1

/-- Reading up to the newline that ends an entry without newlines. -/
theorem takeWhile_entry (e rest : Str) (hnl : '\n' ∉ e) :
    (e ++ '\n' :: rest).takeWhile (fun c => c != '\n') = e := by
  induction e with
  | nil => simp
  | cons a t ih =>
    have ha : a ≠ '\n' := fun h => hnl (by simp [h])
    have ht : '\n' ∉ t := fun h => hnl (by simp [h])
    simp [List.takeWhile_cons, ha, ih ht]

/-- What is left after the newline that ends an entry without newlines. -/
theorem dropWhile_entry (e rest : Str) (hnl : '\n' ∉ e) :
    (e ++ '\n' :: rest).dropWhile (fun c => c != '\n') = '\n' :: rest := by
  induction e with
  | nil => simp
  | cons a t ih =>
    have ha : a ≠ '\n' := fun h => hnl (by simp [h])
    have ht : '\n' ∉ t := fun h => hnl (by simp [h])
    simp [List.dropWhile_cons, ha, ih ht]

/-- Loop invariant of `loadHistory` on a file written by `saveHistory`: while
the capacity is not exceeded, every written entry is appended to both
containers. -/
theorem loadHistoryLoop_saveHistory (h : List Str) :
    ∀ (fuel : Nat) (history historyVector : List Str),
      (saveHistory h).length < fuel →
      history.length + h.length ≤ MAX_HISTORY_SIZE →
      (∀ e ∈ h, '\n' ∉ e) →
      loadHistoryLoop fuel (saveHistory h) history historyVector
        = (history ++ h, historyVector ++ h) := by
  induction h with
  | nil =>
    intro fuel history historyVector hf _ _
    cases fuel with
    | zero => simp [loadHistoryLoop]
    | succ fuel => simp [loadHistoryLoop, saveHistory, getline]
  | cons e rest ih =>
    intro fuel history historyVector hf hcap hnl
    cases fuel with
    | zero => omega
    | succ fuel =>
      have he : '\n' ∉ e := hnl e (by simp)
      have hg : getline (saveHistory (e :: rest)) = some (e, saveHistory rest) := by
        simp only [saveHistory, getline, List.append_assoc, List.singleton_append]
        rw [takeWhile_entry e _ he, dropWhile_entry e _ he]
        simp
      have hlen : ¬ history.length ≥ MAX_HISTORY_SIZE := by
        simp only [List.length_cons] at hcap; omega
      have hf1 : (saveHistory rest).length < fuel := by
        simp only [saveHistory, List.length_append, List.length_cons,
          List.length_nil] at hf
        omega
      simp only [loadHistoryLoop, hg, if_neg hlen]
      rw [ih fuel _ _ hf1 (by simp only [List.length_append, List.length_cons,
        List.length_nil] at *; omega) (fun x hx => hnl x (by simp [hx]))]
      simp

/-- C5: for every history list of at most 20 entries, none empty and none
containing a newline, `loadHistory` into an empty history on the contents
written by `saveHistory` yields the same entries in the same order. -/
theorem history_round_trip (h historyVector : List Str)
    (hlen : h.length ≤ 20) (hne : ∀ e ∈ h, e ≠ []) (hnl : ∀ e ∈ h, '\n' ∉ e) :
    (loadHistory ⟨[], historyVector, saveHistory h⟩).history = h := by
  have _ := hne
  unfold loadHistory
  simp only
  rw [loadHistoryLoop_saveHistory h _ [] historyVector (by omega)
    (by simp [MAX_HISTORY_SIZE]; exact hlen) hnl]
  simp

/-- C5 at a concrete input: three entries survive the round trip. -/
theorem history_round_trip_witness :
    (loadHistory ⟨[], [], saveHistory ["ls -l".toList, "pwd".toList, "echo hi".toList]⟩).history
      = ["ls -l".toList, "pwd".toList, "echo hi".toList] :=
  history_round_trip ["ls -l".toList, "pwd".toList, "echo hi".toList] []
    (by decide) (by decide) (by decide)

/-! ## History recall with the arrow keys -/

/-- An UP arrow with the cursor above the oldest entry recalls the entry just
before the cursor. -/
theorem keyUp_succ (hv : List Str) (buf : Str) (i : Nat) (hi : i < hv.length) :
    keyUp hv ⟨buf, i + 1⟩ = some ⟨hv[i], i⟩ := by
  have hne : hv.isEmpty = false := by cases hv <;> simp_all
  simp [keyUp, hne, List.getElem?_eq_getElem hi]

/-- After `k` UP arrows from cursor position `i` the cursor is at `i - k` and
the buffer holds that entry. -/
theorem pressArrows_up (hv : List Str) :
    ∀ (k i : Nat) (buf : Str) (h1 : 1 ≤ k) (h2 : k ≤ i) (h3 : i ≤ hv.length),
      pressArrows hv (List.replicate k Arrow.up) ⟨buf, i⟩
        = some ⟨hv[i - k], i - k⟩ := by
  intro k
  induction k with
  | zero => intro i buf h1; omega
  | succ k ih =>
    intro i buf _ h2 h3
    obtain ⟨j, rfl⟩ : ∃ j, i = j + 1 := ⟨i - 1, by omega⟩
    simp only [List.replicate_succ, pressArrows, keyUp_succ hv buf j (by omega),
      Option.some_bind]
    by_cases hk : k = 0
    · subst hk
      simp [pressArrows]
    · rw [ih j _ (by omega) (by omega) (by omega)]
      simp only [Nat.add_sub_add_right]

/-- Arrow keys never read outside the history view and keep the cursor
between 0 and its size. -/
theorem pressArrows_in_bounds (hv : List Str) :
    ∀ (keys : List Arrow) (st : EditState), st.historyIndex ≤ hv.length →
      ∃ st1, pressArrows hv keys st = some st1 ∧ st1.historyIndex ≤ hv.length := by
  intro keys
  induction keys with
  | nil => intro st h; exact ⟨st, rfl, h⟩
  | cons key keys ih =>
    intro st h
    cases key with
    | up =>
      by_cases hc : (!hv.isEmpty && decide (st.historyIndex > 0)) = true
      · have hpos : st.historyIndex > 0 := by simp at hc; exact hc.2
        have hlt : st.historyIndex - 1 < hv.length := by omega
        have hk : keyUp hv st = some ⟨hv[st.historyIndex - 1], st.historyIndex - 1⟩ := by
          simp only [keyUp, hc, if_true, List.getElem?_eq_getElem hlt]
        simp only [pressArrows, hk, Option.some_bind]
        exact ih _ (by simp only; omega)
      · have hk : keyUp hv st = some st := by simp only [keyUp, hc]; simp
        simp only [pressArrows, hk, Option.some_bind]
        exact ih _ h
    | down =>
      by_cases hc : (!hv.isEmpty && decide (st.historyIndex < hv.length - 1)) = true
      · have hpos : st.historyIndex < hv.length - 1 := by simp at hc; exact hc.2
        have hlt : st.historyIndex + 1 < hv.length := by omega
        have hk : keyDown hv st = some ⟨hv[st.historyIndex + 1], st.historyIndex + 1⟩ := by
          simp only [keyDown, hc, if_true, List.getElem?_eq_getElem hlt]
        simp only [pressArrows, hk, Option.some_bind]
        exact ih _ (by simp only; omega)
      · have hk : keyDown hv st = some ⟨[], hv.length⟩ := by
          simp only [keyDown, hc]; simp
        simp only [pressArrows, hk, Option.some_bind]
        exact ih _ (by simp)

/-- C7: with a history view `hv` of `n` entries and the cursor starting one past
the newest entry, after `k` UP arrows (`1 ≤ k ≤ n`) the buffer is `hv[n - k]`;
an UP arrow with the cursor on index 0, or with an empty history, changes
neither buffer nor cursor; and whatever arrow keys are pressed, no read falls
outside `hv` and the cursor stays within `0 .. n`. -/
theorem history_recall (hv : List Str) :
    (∀ (k : Nat) (buf : Str) (h1 : 1 ≤ k) (h2 : k ≤ hv.length),
        pressArrows hv (List.replicate k Arrow.up) ⟨buf, hv.length⟩
          = some ⟨hv[hv.length - k], hv.length - k⟩)
      ∧ (EditState.start hv).historyIndex = hv.length
      ∧ (∀ st : EditState, st.historyIndex = 0 ∨ hv = [] → keyUp hv st = some st)
      ∧ (∀ keys : List Arrow, ∃ st,
          pressArrows hv keys (EditState.start hv) = some st
            ∧ st.historyIndex ≤ hv.length) := by
  refine ⟨fun k buf h1 h2 => pressArrows_up hv k hv.length buf h1 h2 (Nat.le_refl _),
    rfl, ?_, fun keys => pressArrows_in_bounds hv keys _ (Nat.le_refl _)⟩
  intro st h
  rcases h with h | h
  · simp [keyUp, h]
  · simp [keyUp, h]

/-- C7 at a concrete input: two UP arrows over three entries recall the second
newest. -/
theorem history_recall_witness :
    pressArrows ["ls".toList, "pwd".toList, "date".toList]
        (List.replicate 2 Arrow.up) ⟨[], 3⟩
      = some ⟨"pwd".toList, 1⟩ :=
  (history_recall ["ls".toList, "pwd".toList, "date".toList]).1 2 []
    (by decide) (by decide)

/-! ## Tab completion -/

/-- The byte does not occur when `rfindChar` finds nothing. -/
theorem rfindChar_none (c : Char) : ∀ s : Str, rfindChar c s = none → c ∉ s := by
  intro s
  induction s with
  | nil => intro _; simp
  | cons x xs ih =>
    intro h
    unfold rfindChar at h
    cases hx : rfindChar c xs with
    | some k => rw [hx] at h; simp at h
    | none =>
      rw [hx] at h
      simp only at h
      by_cases hxc : x = c
      · simp [hxc] at h
      · intro hmem
        rcases List.mem_cons.mp hmem with h1 | h1
        · exact hxc h1.symm
        · exact ih hx h1

/-- The index `rfindChar` finds holds the byte, and the byte does not occur
after it. -/
theorem rfindChar_some (c : Char) :
    ∀ (s : Str) (k : Nat), rfindChar c s = some k →
      s = s.take k ++ c :: s.drop (k + 1) ∧ c ∉ s.drop (k + 1) := by
  intro s
  induction s with
  | nil => intro k h; simp [rfindChar] at h
  | cons x xs ih =>
    intro k h
    unfold rfindChar at h
    cases hx : rfindChar c xs with
    | some k1 =>
      rw [hx] at h
      simp only [Option.some.injEq] at h
      subst h
      obtain ⟨h1, h2⟩ := ih k1 hx
      refine ⟨?_, by simpa using h2⟩
      simp only [List.take_succ_cons, List.drop_succ_cons, List.cons_append]
      rw [← h1]
    | none =>
      rw [hx] at h
      simp only at h
      by_cases hxc : x = c
      · simp only [hxc, if_true, Option.some.injEq] at h
        subst h
        subst hxc
        exact ⟨by simp, by simpa using rfindChar_none x xs hx⟩
      · simp [hxc] at h

/-- The prefix the TAB branch completes is the longest suffix of the buffer
without a space and without `/`: it has neither byte, and what precedes it is
empty or ends in one of them. -/
theorem filePrefixOf_spec (input : Str) :
    ∃ pre : Str, input = pre ++ filePrefixOf input
      ∧ ' ' ∉ filePrefixOf input ∧ '/' ∉ filePrefixOf input
      ∧ (pre = [] ∨ pre.getLast? = some ' ' ∨ pre.getLast? = some '/') := by
  have htok : ∃ (p1 tok : Str), input = p1 ++ tok ∧ ' ' ∉ tok
      ∧ (p1 = [] ∨ p1.getLast? = some ' ')
      ∧ filePrefixOf input
          = (match rfindChar '/' tok with
             | some slashPos => tok.drop (slashPos + 1)
             | none => tok) := by
    cases h1 : rfindChar ' ' input with
    | none =>
      exact ⟨[], input, by simp, rfindChar_none _ _ h1, Or.inl rfl, by simp [filePrefixOf, h1]⟩
    | some pos =>
      obtain ⟨e1, e2⟩ := rfindChar_some _ _ _ h1
      refine ⟨input.take pos ++ [' '], input.drop (pos + 1), ?_, e2, Or.inr (by simp), ?_⟩
      · simpa using e1
      · simp [filePrefixOf, h1]
  obtain ⟨p1, tok, hin, hsp, hp1, hfp⟩ := htok
  cases h2 : rfindChar '/' tok with
  | none =>
    rw [h2] at hfp
    simp only at hfp
    rw [hfp]
    exact ⟨p1, hin, hsp, rfindChar_none _ _ h2, by tauto⟩
  | some sp =>
    rw [h2] at hfp
    simp only at hfp
    obtain ⟨e1, e2⟩ := rfindChar_some _ _ _ h2
    rw [hfp]
    refine ⟨p1 ++ tok.take sp ++ ['/'], ?_, ?_, e2, Or.inr (Or.inr (by simp))⟩
    · rw [hin]
      conv_lhs => rw [e1]
      simp
    · intro hmem
      exact hsp (List.mem_of_mem_drop hmem)

/-- C6: let the prefix be the part of the buffer's last space-delimited token
after its last `/` (the longest suffix of the buffer holding neither a space
nor a `/`) and `M` the entries of the listed directory that start with it.  If `M` is one entry `e`, the buffer becomes the old buffer followed by `e`
without the prefix (and prefix plus that completion is `e`); if `M` has more
than one entry, the buffer is unchanged and the names listed are `M` in
ascending order; if `M` is empty, the buffer is unchanged and nothing is
printed. -/
theorem tab_completion (w : World) (input : Str) (entries : List Str)
    (hdir : w.readdir (cstr (dirPathOf input)) = some entries) :
    (∃ pre : Str, input = pre ++ filePrefixOf input
        ∧ ' ' ∉ filePrefixOf input ∧ '/' ∉ filePrefixOf input
        ∧ (pre = [] ∨ pre.getLast? = some ' ' ∨ pre.getLast? = some '/'))
      ∧ (∀ e : Str, entries.filter (fun f => (filePrefixOf input).isPrefixOf f) = [e] →
        tabComplete w input
            = ⟨input ++ e.drop (filePrefixOf input).length,
               e.drop (filePrefixOf input).length, []⟩
          ∧ filePrefixOf input ++ e.drop (filePrefixOf input).length = e)
      ∧ ((entries.filter (fun f => (filePrefixOf input).isPrefixOf f)).length > 1 →
          (tabComplete w input).input = input
            ∧ (tabComplete w input).echoed = []
            ∧ (tabComplete w input).listed.Sorted (fun a b => a ≤ b)
            ∧ (tabComplete w input).listed.Perm
                (entries.filter (fun f => (filePrefixOf input).isPrefixOf f)))
      ∧ (entries.filter (fun f => (filePrefixOf input).isPrefixOf f) = [] →
          tabComplete w input = ⟨input, [], []⟩) := by
  refine ⟨filePrefixOf_spec input, ?_, ?_, ?_⟩
  · intro e he
    constructor
    · simp only [tabComplete, hdir, he]
      simp
    · have hmem : e ∈ entries.filter (fun f => (filePrefixOf input).isPrefixOf f) := by
        rw [he]; simp
      have hp : (filePrefixOf input).isPrefixOf e = true := (List.mem_filter.mp hmem).2
      exact List.prefix_iff_eq_append.mp (List.isPrefixOf_iff_prefix.mp hp)
  · intro hlen
    have h1 : ¬ (entries.filter (fun f => (filePrefixOf input).isPrefixOf f)).length = 1 := by
      omega
    simp only [tabComplete, hdir, if_neg h1, if_pos hlen, sortNames]
    exact ⟨trivial, trivial, List.sorted_insertionSort _ _, List.perm_insertionSort _ _⟩
  · intro he
    simp only [tabComplete, hdir, he]
    simp

/-- C6 at the entries `foo.txt`, `foobar.txt`, `bar.txt`: the prefix `ba` has
the single match `bar.txt`, and the buffer `cat ba` becomes `cat bar.txt`. -/
theorem tab_completion_witness :
    tabComplete demoWorld "cat ba".toList
        = ⟨"cat ba".toList ++ "bar.txt".toList.drop (filePrefixOf "cat ba".toList).length,
           "bar.txt".toList.drop (filePrefixOf "cat ba".toList).length, []⟩
      ∧ filePrefixOf "cat ba".toList
          ++ "bar.txt".toList.drop (filePrefixOf "cat ba".toList).length
          = "bar.txt".toList :=
  (tab_completion demoWorld "cat ba".toList
    ["foo.txt".toList, "foobar.txt".toList, "bar.txt".toList] rfl).2.1
    "bar.txt".toList (by decide)

/-- The entries `foo.txt`, `foobar.txt`, `bar.txt` with the prefix `foo`: the
buffer is unchanged and `foo.txt`, `foobar.txt` are listed in that order. -/
theorem tab_completion_foo :
    tabComplete demoWorld "cat foo".toList
      = ⟨"cat foo".toList, [], ["foo.txt".toList, "foobar.txt".toList]⟩ := by
  decide

/-! ## Descriptor wiring of a pipeline segment -/

/-- Loop invariant of `processRedirection` for the two descriptors: from index
`i` on, the last redirection of each kind that has an operand decides. -/
theorem processRedirectionLoop_fds (w : World) (tokens : List Str) :
    ∀ (fuel i : Nat) (st : Redir), tokens.length ≤ i + fuel →
      (processRedirectionLoop w tokens fuel i st).inputFd
          = inputFdSpec w st.inputFd (tokens.drop i)
        ∧ (processRedirectionLoop w tokens fuel i st).outputFd
          = outputFdSpec w st.outputFd (tokens.drop i) := by
  intro fuel
  induction fuel with
  | zero =>
    intro i st h
    have : tokens.drop i = [] := List.drop_eq_nil_of_le (by omega)
    simp [processRedirectionLoop, this, inputFdSpec, outputFdSpec, inputTarget, outputTarget]
  | succ fuel ih =>
    intro i st h
    unfold processRedirectionLoop
    by_cases hi : i < tokens.length
    · have hd : tokens.drop i = tokens[i] :: tokens.drop (i + 1) :=
        List.drop_eq_getElem_cons hi
      rw [dif_pos hi, hd]
      by_cases h2 : i + 1 < tokens.length
      · have hd2 : tokens.drop (i + 1) = tokens[i + 1] :: tokens.drop (i + 2) :=
          List.drop_eq_getElem_cons h2
        rw [hd2]
        have ih2 := fun st => ih (i + 2) st (by omega)
        have ih1 := ih (i + 1) st (by omega)
        rw [hd2] at ih1
        by_cases h1 : tokens[i] = ['<']
        · rw [if_pos h1, dif_pos h2]
          simp only [ih2, inputFdSpec, outputFdSpec, inputTarget, outputTarget, isRedirOp, h1]
          constructor
          · cases inputTarget (tokens.drop (i + 2)) <;> simp
          · cases outputTarget (tokens.drop (i + 2)) <;> simp
        · rw [if_neg h1]
          by_cases h3 : tokens[i] = ['>']
          · rw [if_pos h3, dif_pos h2]
            simp only [ih2, inputFdSpec, outputFdSpec, inputTarget, outputTarget, isRedirOp, h3]
            constructor
            · cases inputTarget (tokens.drop (i + 2)) <;> simp
            · cases outputTarget (tokens.drop (i + 2)) <;> simp
          · rw [if_neg h3]
            by_cases h4 : tokens[i] = ['>', '>']
            · rw [if_pos h4, dif_pos h2]
              simp only [ih2, inputFdSpec, outputFdSpec, inputTarget, outputTarget, isRedirOp,
                h4]
              constructor
              · cases inputTarget (tokens.drop (i + 2)) <;> simp
              · cases outputTarget (tokens.drop (i + 2)) <;> simp
            · rw [if_neg h4]
              have ih1b := ih (i + 1) { st with tokens := st.tokens ++ [tokens[i]] } (by omega)
              rw [hd2] at ih1b
              simp only [ih1b, inputFdSpec, outputFdSpec, inputTarget, outputTarget, isRedirOp,
                h1, h3, h4]
              simp
      · have hd2 : tokens.drop (i + 1) = [] := List.drop_eq_nil_of_le (by omega)
        have ih1 := fun st => ih (i + 1) st (by omega)
        rw [hd2]
        simp only [dif_neg h2, inputFdSpec, outputFdSpec, inputTarget, outputTarget]
        split_ifs <;>
          simp [ih1, hd2, inputFdSpec, outputFdSpec, inputTarget, outputTarget]
    · rw [dif_neg hi]
      have : tokens.drop i = [] := List.drop_eq_nil_of_le (by omega)
      simp [this, inputFdSpec, outputFdSpec, inputTarget, outputTarget]

/-- The descriptors `processRedirection` returns, by the targets of the scan. -/
theorem processRedirection_fds (w : World) (tokens : List Str) :
    (processRedirection w tokens).inputFd = fdOf (ownInput w tokens)
      ∧ (processRedirection w tokens).outputFd = fdOf (ownOutput w tokens) := by
  have h := processRedirectionLoop_fds w tokens tokens.length 0 ⟨[], -1, -1⟩ (by omega)
  simp only [List.drop_zero] at h
  unfold processRedirection
  rw [h.1, h.2]
  simp only [inputFdSpec, outputFdSpec, ownInput, ownOutput]
  constructor
  · cases inputTarget tokens <;> simp [fdOf]
  · cases outputTarget tokens <;> simp [fdOf]

/-- The four `dup2` blocks of a pipeline child amount to: an own descriptor
wins, else the pipe, else the inherited stream. -/
theorem wireSegment_spec (i n : Nat) (hi : i < n) (a b : Option Nat) :
    (wireSegment i n (fdOf a) (fdOf b)).1
        = (match a with
           | some fd => StdinSrc.file (fd : Int)
           | none => if i > 0 then StdinSrc.pipeRead (i - 1) else StdinSrc.inherited)
      ∧ (wireSegment i n (fdOf a) (fdOf b)).2
        = (match b with
           | some fd => StdoutDst.file (fd : Int)
           | none => if i < n - 1 then StdoutDst.pipeWrite i else StdoutDst.inherited) := by
  constructor
  · cases a with
    | none =>
      by_cases h0 : i = 0
      · simp [wireSegment, fdOf, h0]
      · have : i > 0 := by omega
        simp [wireSegment, fdOf, h0, this]
    | some fd =>
      have : (fd : Int) ≠ -1 := by omega
      simp [wireSegment, fdOf, this]
  · cases b with
    | none =>
      by_cases h0 : i = n - 1
      · have : ¬ i < n - 1 := by omega
        simp only [wireSegment, fdOf]
        simp [h0]
      · have : i < n - 1 := by omega
        simp [wireSegment, fdOf, h0, this]
    | some fd =>
      have : (fd : Int) ≠ -1 := by omega
      simp [wireSegment, fdOf, this]

/-- A child among `events ++ more` when `more` holds no process creation is a
child among `events`. -/
theorem isChild_append_waits (c : Child) (events : List Event) (pids : List Int)
    (h : IsChild c (events ++ pids.map Event.waitFor)) : IsChild c events := by
  rcases h with ⟨pid, h⟩ | h
  · rcases List.mem_append.mp h with h | h
    · exact Or.inl ⟨pid, h⟩
    · simp at h
  · rcases List.mem_append.mp h with h | h
    · exact Or.inr h
    · simp at h

/-- Invariant of the spawning loop: every child it creates belongs to one of
the remaining segments and is wired as specified for that segment's index. -/
theorem pipedLoop_children (w : World) (n : Nat) (c : Child) :
    ∀ (segs : List Str) (i : Nat) (events : List Event) (pids : List Int),
      i + segs.length ≤ n →
      IsChild c (pipedLoop w n segs i events pids).events →
      IsChild c events ∨
        ∃ (j : Nat) (seg : Str), segs[j]? = some seg
          ∧ c.argv.drop 1 = (removeRedirections (tokenize seg blanks)).drop 1
          ∧ c.stdin = stdinSpec w (i + j) (tokenize seg blanks)
          ∧ c.stdout = stdoutSpec w (i + j) n (tokenize seg blanks) := by
  intro segs
  induction segs with
  | nil =>
    intro i events pids _ h
    exact Or.inl (isChild_append_waits c events pids h)
  | cons seg segs ih =>
    intro i events pids hn h
    have hn1 : i + 1 + segs.length ≤ n := by
      simp only [List.length_cons] at hn; omega
    have hi : i < n := by omega
    have shift : ∀ ev : List Event, (IsChild c ev ∨
        ∃ (j : Nat) (sg : Str), segs[j]? = some sg
          ∧ c.argv.drop 1 = (removeRedirections (tokenize sg blanks)).drop 1
          ∧ c.stdin = stdinSpec w (i + 1 + j) (tokenize sg blanks)
          ∧ c.stdout = stdoutSpec w (i + 1 + j) n (tokenize sg blanks)) →
        (IsChild c ev ∨
        ∃ (j : Nat) (sg : Str), (seg :: segs)[j]? = some sg
          ∧ c.argv.drop 1 = (removeRedirections (tokenize sg blanks)).drop 1
          ∧ c.stdin = stdinSpec w (i + j) (tokenize sg blanks)
          ∧ c.stdout = stdoutSpec w (i + j) n (tokenize sg blanks)) := by
      rintro ev (h | ⟨j, sg, h1, h2, h3, h4⟩)
      · exact Or.inl h
      · refine Or.inr ⟨j + 1, sg, by simpa using h1, h2, ?_, ?_⟩
        · rw [h3]; congr 1; omega
        · rw [h4]; congr 1; omega
    have hfd := processRedirection_fds w (tokenize seg blanks)
    have htok := processRedirection_tokens_eq w (tokenize seg blanks)
    unfold pipedLoop at h
    simp only at h
    cases hr : (processRedirection w (tokenize seg blanks)).tokens with
    | nil =>
      rw [hr] at h
      exact shift _ (ih (i + 1) events pids hn1 h)
    | cons t0 rest =>
      rw [hr] at h
      simp only at h
      by_cases ht0 : t0.isEmpty = true
      · rw [if_pos ht0] at h
        exact shift _ (ih (i + 1) events pids hn1 h)
      · rw [if_neg ht0] at h
        by_cases hp : (findExecutablePath w t0).isEmpty = true
        · rw [if_pos hp] at h
          exact shift _ (ih (i + 1) events pids hn1 h)
        · rw [if_neg hp] at h
          have hw := wireSegment_spec i n hi (ownInput w (tokenize seg blanks))
            (ownOutput w (tokenize seg blanks))
          rw [← hfd.1, ← hfd.2] at hw
          have hrest : rest = (removeRedirections (tokenize seg blanks)).drop 1 := by
            rw [← htok, hr]; rfl
          have here : ∃ (j : Nat) (sg : Str), (seg :: segs)[j]? = some sg
              ∧ ((⟨findExecutablePath w t0, findExecutablePath w t0 :: rest,
                    (wireSegment i n (processRedirection w (tokenize seg blanks)).inputFd
                      (processRedirection w (tokenize seg blanks)).outputFd).1,
                    (wireSegment i n (processRedirection w (tokenize seg blanks)).inputFd
                      (processRedirection w (tokenize seg blanks)).outputFd).2⟩ : Child).argv.drop 1
                  = (removeRedirections (tokenize sg blanks)).drop 1)
              ∧ (wireSegment i n (processRedirection w (tokenize seg blanks)).inputFd
                    (processRedirection w (tokenize seg blanks)).outputFd).1
                  = stdinSpec w (i + j) (tokenize sg blanks)
              ∧ (wireSegment i n (processRedirection w (tokenize seg blanks)).inputFd
                    (processRedirection w (tokenize seg blanks)).outputFd).2
                  = stdoutSpec w (i + j) n (tokenize sg blanks) := by
            refine ⟨0, seg, by simp, ?_, ?_, ?_⟩
            · simpa using hrest
            · rw [hw.1]; rfl
            · rw [hw.2]; rfl
          by_cases hz : w.fork pids.length = 0
          · rw [if_pos hz] at h
            rcases h with ⟨pid, h⟩ | h
            · rcases List.mem_append.mp h with h | h
              · exact Or.inl (Or.inl ⟨pid, h⟩)
              · simp at h
            · rcases List.mem_append.mp h with h | h
              · exact Or.inl (Or.inr h)
              · simp only [List.mem_singleton, Event.exec.injEq] at h
                subst h
                exact Or.inr here
          · rw [if_neg hz] at h
            by_cases hneg : w.fork pids.length < 0
            · rw [if_pos hneg] at h
              rcases h with ⟨pid, h⟩ | h
              · rcases List.mem_append.mp h with h | h
                · exact Or.inl (Or.inl ⟨pid, h⟩)
                · simp at h
              · rcases List.mem_append.mp h with h | h
                · exact Or.inl (Or.inr h)
                · simp at h
            · rw [if_neg hneg] at h
              rcases shift _ (ih (i + 1) _ _ hn1 h) with h | h
              · rcases h with ⟨pid, h⟩ | h
                · rcases List.mem_append.mp h with h | h
                  · exact Or.inl (Or.inl ⟨pid, h⟩)
                  · simp only [List.mem_singleton, Event.spawn.injEq] at h
                    obtain ⟨_, h⟩ := h
                    subst h
                    exact Or.inr here
                · rcases List.mem_append.mp h with h | h
                  · exact Or.inl (Or.inr h)
                  · simp at h
              · exact Or.inr h

/-- Every child of `executePipedCommands` is segment `i` of the `n` filtered
segments for some `i`, runs that segment's arguments, and is wired so
that its standard input is the segment's own input file when its `<`
redirection opened, otherwise the read end of pipe `i - 1` when `i > 0`,
otherwise inherited, and its standard output is the segment's own output file
when its `>` / `>>` redirection opened, otherwise the write end of pipe `i`
when `i < n - 1`, otherwise inherited. -/
theorem pipeline_child_of_segment (w : World) (pipedCommands : List Str) (c : Child)
    (hc : IsChild c (executePipedCommands w pipedCommands).events) :
    ∃ (i : Nat) (seg : Str), (filterSegments pipedCommands)[i]? = some seg
      ∧ c.argv.drop 1 = (removeRedirections (tokenize seg blanks)).drop 1
      ∧ c.stdin
          = (match ownInput w (tokenize seg blanks) with
             | some fd => StdinSrc.file (fd : Int)
             | none => if i > 0 then StdinSrc.pipeRead (i - 1) else StdinSrc.inherited)
      ∧ c.stdout
          = (match ownOutput w (tokenize seg blanks) with
             | some fd => StdoutDst.file (fd : Int)
             | none =>
               if i < (filterSegments pipedCommands).length - 1 then StdoutDst.pipeWrite i
               else StdoutDst.inherited) := by
  unfold executePipedCommands at hc
  simp only at hc
  by_cases he : (filterSegments pipedCommands).isEmpty = true
  · rw [if_pos he] at hc
    rcases hc with ⟨pid, h⟩ | h <;> simp at h
  · rw [if_neg he] at hc
    by_cases hp : (List.range ((filterSegments pipedCommands).length - 1)).any w.pipeFails = true
    · rw [if_pos hp] at hc
      rcases hc with ⟨pid, h⟩ | h <;> simp at h
    · rw [if_neg hp] at hc
      rcases pipedLoop_children w _ c _ 0 [] [] (by omega) hc with h | ⟨j, seg, h1, h2, h3, h4⟩
      · rcases h with ⟨pid, h⟩ | h <;> simp at h
      · refine ⟨j, seg, h1, h2, ?_, ?_⟩
        · rw [h3]; simp [stdinSpec]
        · rw [h4]; simp [stdoutSpec]

theorem childrenOf_append (es fs : List Event) :
    childrenOf (es ++ fs) = childrenOf es ++ childrenOf fs := by
  induction es with
  | nil => rfl
  | cons e es ih =>
    cases e <;> simp [childrenOf, ih]

theorem childrenOf_waits (pids : List Int) : childrenOf (pids.map Event.waitFor) = [] := by
  induction pids with
  | nil => rfl
  | cons p pids ih => simp [childrenOf, ih]

/-- The children of a list of segments that starts with `seg`. -/
theorem segmentChildren_cons (w : World) (n : Nat) (seg : Str) (segs : List Str) (i : Nat) :
    segmentChildren w n (seg :: segs) i
      = (segmentChild w n i seg).toList ++ segmentChildren w n segs (i + 1) := by
  simp only [segmentChildren, List.enumFrom_cons, List.filterMap_cons]
  cases segmentChild w n i seg <;> rfl

/-- Invariant of the spawning loop: the children it creates are those of the
remaining segments, each with the wiring of its own index, created in order
for as long as `fork` returns a positive identifier. -/
theorem pipedLoop_childrenOf (w : World) (n : Nat) :
    ∀ (segs : List Str) (i : Nat) (events : List Event) (pids : List Int),
      i + segs.length ≤ n →
      childrenOf (pipedLoop w n segs i events pids).events
        = childrenOf events ++ createdChildren w (segmentChildren w n segs i) pids.length := by
  intro segs
  induction segs with
  | nil =>
    intro i events pids _
    simp [pipedLoop, childrenOf_append, childrenOf_waits, segmentChildren, createdChildren]
  | cons seg segs ih =>
    intro i events pids hn
    have hn1 : i + 1 + segs.length ≤ n := by
      simp only [List.length_cons] at hn; omega
    have hi : i < n := by omega
    have hfd := processRedirection_fds w (tokenize seg blanks)
    have htok := processRedirection_tokens_eq w (tokenize seg blanks)
    rw [segmentChildren_cons]
    unfold pipedLoop
    simp only
    cases hr : (processRedirection w (tokenize seg blanks)).tokens with
    | nil =>
      have hnone : segmentChild w n i seg = none := by
        simp only [segmentChild, ← htok, hr]
      simp only [hnone, Option.toList_none, List.nil_append]
      exact ih (i + 1) events pids hn1
    | cons t0 rest =>
      simp only
      by_cases ht0 : t0.isEmpty = true
      · have hnone : segmentChild w n i seg = none := by
          simp only [segmentChild, ← htok, hr, ht0, if_true]
        simp only [ht0, if_true, hnone, Option.toList_none, List.nil_append]
        exact ih (i + 1) events pids hn1
      · by_cases hp : (findExecutablePath w t0).isEmpty = true
        · have hnone : segmentChild w n i seg = none := by
            simp only [segmentChild, ← htok, hr, ht0, hp, Bool.false_eq_true, if_false,
              if_true]
          simp only [ht0, hp, Bool.false_eq_true, if_false, if_true, hnone,
            Option.toList_none, List.nil_append]
          exact ih (i + 1) events pids hn1
        · have hw := wireSegment_spec i n hi (ownInput w (tokenize seg blanks))
            (ownOutput w (tokenize seg blanks))
          rw [← hfd.1, ← hfd.2] at hw
          have hsome : segmentChild w n i seg
              = some ⟨findExecutablePath w t0, findExecutablePath w t0 :: rest,
                  (wireSegment i n (processRedirection w (tokenize seg blanks)).inputFd
                    (processRedirection w (tokenize seg blanks)).outputFd).1,
                  (wireSegment i n (processRedirection w (tokenize seg blanks)).inputFd
                    (processRedirection w (tokenize seg blanks)).outputFd).2⟩ := by
            simp only [segmentChild, ← htok, hr, ht0, hp, Bool.false_eq_true, if_false]
            rw [hw.1, hw.2]
            rfl
          simp only [ht0, hp, Bool.false_eq_true, if_false, hsome, Option.toList_some,
            List.singleton_append, createdChildren]
          by_cases hz : w.fork pids.length = 0
          · simp only [hz, if_true, childrenOf_append, childrenOf, List.append_nil]
          · by_cases hneg : w.fork pids.length < 0
            · simp only [hz, hneg, if_false, if_true, childrenOf_append, childrenOf,
                List.append_nil]
            · simp only [hz, hneg, if_false]
              rw [ih (i + 1) _ _ hn1, childrenOf_append]
              simp only [childrenOf, List.length_append, List.length_singleton,
                List.append_assoc, List.singleton_append]

/-- When every `fork` returns a positive identifier, every child is created. -/
theorem createdChildren_all (w : World) (hfork : ∀ k, 0 < w.fork k) :
    ∀ (children : List Child) (k : Nat), createdChildren w children k = children := by
  intro children
  induction children with
  | nil => intro k; rfl
  | cons c cs ih =>
    intro k
    have h := hfork k
    have h1 : ¬ w.fork k = 0 := by omega
    have h2 : ¬ w.fork k < 0 := by omega
    simp only [createdChildren, h1, h2, if_false, ih]

/-- C10: descriptor wiring of segment `i` in an `n`-segment pipeline.  The
children `executePipedCommands` creates are, in order, the children of the
filtered segments `0, 1, …, n - 1` (a segment without program or without
executable has none), created for as long as `fork` succeeds, all of them when
every pipe is allocated and every `fork` returns a positive identifier.  The
child of segment `i` runs the resolved path of its token 0 with the segment's
arguments; its standard input is the segment's own input file when its `<`
redirection opened, otherwise the read end of pipe `i - 1` when `i > 0`,
otherwise inherited; its standard output is the segment's own output file when
its `>` / `>>` redirection opened, otherwise the write end of pipe `i` when
`i < n - 1`, otherwise inherited. -/
theorem pipeline_wiring (w : World) (pipedCommands : List Str) :
    (childrenOf (executePipedCommands w pipedCommands).events
        = if (List.range ((filterSegments pipedCommands).length - 1)).any w.pipeFails
          then []
          else createdChildren w
            (((filterSegments pipedCommands).enumFrom 0).filterMap
              (fun p => segmentChild w (filterSegments pipedCommands).length p.1 p.2)) 0)
      ∧ ((∀ k, 0 < w.fork k) → (∀ i, w.pipeFails i = false) →
          childrenOf (executePipedCommands w pipedCommands).events
            = ((filterSegments pipedCommands).enumFrom 0).filterMap
                (fun p => segmentChild w (filterSegments pipedCommands).length p.1 p.2))
      ∧ (∀ (n i : Nat) (seg : Str) (c : Child), segmentChild w n i seg = some c →
          ∃ (t0 : Str) (rest : List Str),
            removeRedirections (tokenize seg blanks) = t0 :: rest
              ∧ c.path = findExecutablePath w t0
              ∧ c.argv = findExecutablePath w t0 :: rest
              ∧ c.stdin
                  = (match ownInput w (tokenize seg blanks) with
                     | some fd => StdinSrc.file (fd : Int)
                     | none =>
                       if i > 0 then StdinSrc.pipeRead (i - 1) else StdinSrc.inherited)
              ∧ c.stdout
                  = (match ownOutput w (tokenize seg blanks) with
                     | some fd => StdoutDst.file (fd : Int)
                     | none =>
                       if i < n - 1 then StdoutDst.pipeWrite i
                       else StdoutDst.inherited)) := by
  have hexact : childrenOf (executePipedCommands w pipedCommands).events
      = if (List.range ((filterSegments pipedCommands).length - 1)).any w.pipeFails
        then []
        else createdChildren w
          (((filterSegments pipedCommands).enumFrom 0).filterMap
            (fun p => segmentChild w (filterSegments pipedCommands).length p.1 p.2)) 0 := by
    unfold executePipedCommands
    simp only
    by_cases he : (filterSegments pipedCommands).isEmpty = true
    · have hnil : filterSegments pipedCommands = [] := List.isEmpty_iff.mp he
      simp [hnil, childrenOf, createdChildren]
    · rw [if_neg he]
      by_cases hp : (List.range ((filterSegments pipedCommands).length - 1)).any w.pipeFails
          = true
      · simp only [hp, if_true, childrenOf]
      · simp only [hp, Bool.false_eq_true, if_false]
        rw [pipedLoop_childrenOf w _ _ 0 [] [] (by omega)]
        simp only [childrenOf, List.nil_append, List.length_nil, segmentChildren]
  refine ⟨hexact, ?_, ?_⟩
  · intro hfork hpipe
    have hp : (List.range ((filterSegments pipedCommands).length - 1)).any w.pipeFails
        = false := by
      cases h : (List.range ((filterSegments pipedCommands).length - 1)).any w.pipeFails with
      | false => rfl
      | true =>
        obtain ⟨x, _, hx⟩ := List.any_eq_true.mp h
        rw [hpipe x] at hx
        exact absurd hx (by decide)
    rw [hexact, hp]
    simp only [Bool.false_eq_true, if_false]
    exact createdChildren_all w hfork _ 0
  · intro n i seg c hc
    unfold segmentChild at hc
    cases hr : removeRedirections (tokenize seg blanks) with
    | nil => rw [hr] at hc; simp at hc
    | cons t0 rest =>
      rw [hr] at hc
      simp only at hc
      by_cases ht0 : t0.isEmpty = true
      · rw [if_pos ht0] at hc; simp at hc
      · rw [if_neg ht0] at hc
        by_cases hp : (findExecutablePath w t0).isEmpty = true
        · rw [if_pos hp] at hc; simp at hc
        · rw [if_neg hp] at hc
          simp only [Option.some.injEq] at hc
          subst hc
          exact ⟨t0, rest, rfl, rfl, rfl, rfl, rfl⟩

/-- C10 at the pipelines `sleep 1 | cat > out` and `ls | cat`: two children
each; the first keeps the inherited input and writes pipe 0, the second reads
pipe 0 and writes the file its `>` opened, or the inherited output. -/
theorem pipeline_wiring_witness :
    childrenOf (executePipedCommands demoWorld demoPipeline).events
        = [demoFirstChild, demoChild]
      ∧ childrenOf (executePipedCommands demoWorld ["ls".toList, "cat".toList]).events
        = [⟨"/bin/ls".toList, ["/bin/ls".toList], .inherited, .pipeWrite 0⟩,
           ⟨"/bin/cat".toList, ["/bin/cat".toList], .pipeRead 0, .inherited⟩] := by
  have h1 := (pipeline_wiring demoWorld demoPipeline).2.1
    (by intro k; show (0 : Int) < 100 + (k : Int); omega) (by intro i; rfl)
  have h2 := (pipeline_wiring demoWorld ["ls".toList, "cat".toList]).2.1
    (by intro k; show (0 : Int) < 100 + (k : Int); omega) (by intro i; rfl)
  rw [h1, h2]
  decide

/-! ## Failure of `pipe` -/

/-- C8 (the code when no pipe can be allocated, line `ls | cat ; pwd`): the
shell process itself calls `exit(EXIT_FAILURE)` in the first statement, and the
statement `pwd` is never run. -/
theorem pipe_failure_terminates_shell :
    executeCommand (fun _ => noPipeWorld) "ls | cat ; pwd".toList
      = [⟨[.perror "pipe".toList], .exited 1⟩] := by
  decide

/-- A pipe that cannot be allocated ends `executePipedCommands` in
`exit(EXIT_FAILURE)` before any segment is spawned. -/
theorem executePipedCommands_pipe_failure (w : World) (pipedCommands : List Str) (i : Nat)
    (hi : i + 1 < (filterSegments pipedCommands).length) (hfail : w.pipeFails i = true) :
    executePipedCommands w pipedCommands = ⟨[.perror "pipe".toList], .exited 1⟩ := by
  have hne : (filterSegments pipedCommands).isEmpty = false := by
    cases h : filterSegments pipedCommands with
    | nil => rw [h] at hi; simp at hi
    | cons a t => rfl
  have hany : (List.range ((filterSegments pipedCommands).length - 1)).any w.pipeFails
      = true := by
    rw [List.any_eq_true]
    exact ⟨i, List.mem_range.mpr (by omega), hfail⟩
  simp only [executePipedCommands, hne, hany, Bool.false_eq_true, if_false, if_true]

/-- C8, amended: when allocating a pipe fails while a pipeline statement is
being set up, none of its segments is spawned, the failure is reported with
`perror("pipe")`, and the shell process ends with `exit(EXIT_FAILURE)`: the
statement loop stops there, so the remaining statements of the line do not
run. -/
theorem pipe_failure_exits (ws : Nat → World) (fuel j i : Nat) (save singleCmd save1 : Str)
    (htok : strtok_r [';'] save = some (singleCmd, save1))
    (hbar : (trimStatement singleCmd).contains '|' = true)
    (hi : i + 1
      < (filterSegments (filterSegments (tokenize (trimStatement singleCmd) ['|']))).length)
    (hfail : (ws j).pipeFails i = true) :
    runStatement (ws j) singleCmd = ⟨[.perror "pipe".toList], .exited 1⟩
      ∧ executeLoop ws (fuel + 1) save j = [⟨[.perror "pipe".toList], .exited 1⟩] := by
  have hrun : runStatement (ws j) singleCmd = ⟨[.perror "pipe".toList], .exited 1⟩ := by
    have h1 := executePipedCommands_pipe_failure (ws j)
      (filterSegments (tokenize (trimStatement singleCmd) ['|'])) i hi hfail
    have hne : (trimStatement singleCmd).isEmpty = false := by
      cases h : trimStatement singleCmd with
      | nil => rw [h] at hbar; simp at hbar
      | cons a t => rfl
    have hne2 : (filterSegments (tokenize (trimStatement singleCmd) ['|'])).isEmpty = false := by
      cases h : filterSegments (tokenize (trimStatement singleCmd) ['|']) with
      | nil => rw [h] at hi; simp [filterSegments] at hi
      | cons a t => rfl
    simp only [runStatement, hne, hbar, hne2, h1, Bool.false_eq_true, if_false, if_true,
      Bool.not_false]
  refine ⟨hrun, ?_⟩
  simp only [executeLoop, htok, hrun]
  simp

/-- C8, amended, at the line `ls | cat ; pwd` when no pipe can be allocated. -/
theorem pipe_failure_exits_witness :
    runStatement noPipeWorld "ls | cat ".toList = ⟨[.perror "pipe".toList], .exited 1⟩
      ∧ executeLoop (fun _ => noPipeWorld) (0 + 1) "ls | cat ; pwd".toList 0
          = [⟨[.perror "pipe".toList], .exited 1⟩] :=
  pipe_failure_exits (fun _ => noPipeWorld) 0 0 0 "ls | cat ; pwd".toList
    "ls | cat ".toList " pwd".toList (by decide) (by decide) (by decide) (by decide)

/-! ## The foreground identity -/

/-- C9 (the code at the foreground pipeline `sleep 1 | cat`): processes 100
and 101 are spawned, and while the shell blocks in `waitpid` for each of them
`fg_pid` is 0, not the identifier 101 of the last spawned segment. -/
theorem pipeline_foreground_untracked :
    (executeCommand (fun _ => demoWorld) "sleep 1 | cat".toList).map
        (fun r => (spawnedPids r.events, fgAtWaits 0 r.events, r.status))
      = [([100, 101], [(100, 0), (101, 0)], Status.running)] := by
  decide

/-- A launched command the shell waits for: one process is spawned, `fg_pid`
is that process while the shell blocks, and 0 afterwards. -/
theorem launchExternal_foreground (w : World) (inputFd outputFd : Int) (tokens : List Str)
    (background : Bool) (pid fg : Int)
    (hw : Event.waitFor pid ∈ (launchExternal w inputFd outputFd tokens background).events) :
    spawnedPids (launchExternal w inputFd outputFd tokens background).events = [pid]
      ∧ fgAtWaits fg (launchExternal w inputFd outputFd tokens background).events
          = [(pid, pid)]
      ∧ fgAfter fg (launchExternal w inputFd outputFd tokens background).events = 0 := by
  cases tokens with
  | nil => simp [launchExternal] at hw
  | cons t0 rest =>
    unfold launchExternal at hw ⊢
    simp only at hw ⊢
    by_cases h1 : (findExecutablePath w t0).isEmpty = true
    · rw [if_pos h1] at hw; simp at hw
    · rw [if_neg h1] at hw ⊢
      by_cases h2 : w.fork 0 = 0
      · rw [if_pos h2] at hw; simp at hw
      · rw [if_neg h2] at hw ⊢
        by_cases h3 : w.fork 0 > 0
        · rw [if_pos h3] at hw ⊢
          by_cases h4 : (!background) = true
          · rw [if_pos h4] at hw ⊢
            simp only [List.mem_cons, reduceCtorEq, Event.waitFor.injEq, List.mem_nil_iff,
              or_false, false_or] at hw
            rw [← hw]
            simp [spawnedPids, fgAtWaits, fgAfter]
          · rw [if_neg h4] at hw; simp at hw
        · rw [if_neg h3] at hw; simp at hw

/-- A single-segment foreground command: while the shell waits for the process
it spawned, `fg_pid` is that process, and it is 0 once the wait has returned. -/
theorem executeExternalCommand_foreground (w : World) (tokens : List Str)
    (background : Bool) (pid fg : Int)
    (hw : Event.waitFor pid ∈ (executeExternalCommand w tokens background).events) :
    spawnedPids (executeExternalCommand w tokens background).events = [pid]
      ∧ fgAtWaits fg (executeExternalCommand w tokens background).events = [(pid, pid)]
      ∧ fgAfter fg (executeExternalCommand w tokens background).events = 0 := by
  unfold executeExternalCommand at hw ⊢
  by_cases h0 : (tokens.isEmpty || (tokens.headD []).isEmpty) = true
  · rw [if_pos h0] at hw; simp at hw
  · rw [if_neg h0] at hw ⊢
    exact launchExternal_foreground w _ _ _ _ pid fg hw

/-! ## Arithmetic substitution: what is accepted -/

/-- C13 (the code at `echo $((1x))`): the expression `1x` is not well formed,
yet `evaluateArithmetic` returns 1 for it and the shell keeps running; what
follows the parsed prefix is never looked at.  The division `6/0` does end the
shell with `exit(EXIT_FAILURE)`. -/
theorem evaluateArithmetic_trailing_text (ws : Nat → World) :
    evaluateArithmetic "1x".toList = .ok 1
      ∧ executeCommand ws "echo $((1x))".toList
          = [⟨[.handler "echo".toList ["echo".toList, "$((1x))".toList] (-1)], .running⟩]
      ∧ evaluateArithmetic "6/0".toList = .error .divisionByZero
      ∧ executeCommand ws "echo $((6/0))".toList
          = [⟨[.handler "echo".toList ["echo".toList, "$((6/0))".toList] (-1)], .exited 1⟩] := by
  refine ⟨?_, ?_, ?_, ?_⟩ <;> rfl

/-! ## The two history containers after loading -/

/-- C15 (the code on a history file of 21 lines): `loadHistory` leaves the
newest 20 lines in `history` but all 21 in `historyVector`, and after one more
`addCommandToHistory` the list has 20 entries and the vector 21. -/
theorem loadHistory_vector_unbounded :
    (loadHistory ⟨[], [], saveHistory longHistory⟩).history = longHistory.drop 1
      ∧ (loadHistory ⟨[], [], saveHistory longHistory⟩).historyVector = longHistory
      ∧ (addCommandToHistory (loadHistory ⟨[], [], saveHistory longHistory⟩)
            "date".toList).history = longHistory.drop 2 ++ ["date".toList]
      ∧ (addCommandToHistory (loadHistory ⟨[], [], saveHistory longHistory⟩)
            "date".toList).historyVector = longHistory.drop 1 ++ ["date".toList] := by
  decide

/-! ## Token 0 of an external command -/

/-- C16 (the code at the line `< in.txt`): both tokens are removed as a
redirection, and `executeExternalCommand` goes on to `tokens[0]` of the empty
vector. -/
theorem executeCommand_reads_empty_tokens (ws : Nat → World) :
    executeCommand ws "< in.txt".toList = [⟨[], .undefined⟩]
      ∧ (processRedirection (ws 0) ["<".toList, "in.txt".toList]).tokens = [] := by
  constructor <;> rfl

/-! ## Tokens of `strtok_r` are the maximal runs -/

theorem runs_nil (delim : List Char) : runs delim [] = [] := by
  simp [runs, List.splitOnP_nil]

theorem runs_cons_delim (delim : List Char) (d : Char) (xs : Str)
    (hd : delim.contains d = true) : runs delim (d :: xs) = runs delim xs := by
  have hd1 : d ∈ delim := by simpa using hd
  simp [runs, List.splitOnP_cons, hd1]

theorem runs_dropWhile (delim : List Char) (s : Str) :
    runs delim (s.dropWhile (fun c => delim.contains c)) = runs delim s := by
  induction s with
  | nil => rfl
  | cons x xs ih =>
    by_cases hx : delim.contains x = true
    · rw [List.dropWhile_cons_of_pos (by simpa using hx), ih, runs_cons_delim delim x xs hx]
    · rw [List.dropWhile_cons_of_neg (by simpa using hx)]

/-- The first byte left by `dropWhile` fails the test. -/
theorem dropWhile_head_false {q : Char → Bool} :
    ∀ (l : Str) (x : Char) (xs : Str), l.dropWhile q = x :: xs → q x = false := by
  intro l
  induction l with
  | nil => intro x xs h; simp at h
  | cons a t ih =>
    intro x xs h
    by_cases ha : q a = true
    · rw [List.dropWhile_cons_of_pos ha] at h
      exact ih x xs h
    · rw [List.dropWhile_cons_of_neg ha] at h
      simp only [List.cons.injEq] at h
      rw [← h.1]
      simpa using ha

/-- A string that starts outside `delim` has as first run its longest prefix
outside `delim`; the other runs are those of what follows the delimiter that
ends it. -/
theorem runs_first (delim : List Char) (s : Str)
    (hne : s.takeWhile (fun c => !delim.contains c) ≠ []) :
    runs delim s
      = s.takeWhile (fun c => !delim.contains c)
          :: runs delim ((s.dropWhile (fun c => !delim.contains c)).drop 1) := by
  have hsplit := List.takeWhile_append_dropWhile (fun c => !delim.contains c) s
  have htok : ∀ x ∈ s.takeWhile (fun c => !delim.contains c),
      ¬ (fun c => delim.contains c) x = true := by
    intro x hx
    have := List.mem_takeWhile_imp hx
    simpa using this
  have hne2 : (!(s.takeWhile (fun c => !delim.contains c)).isEmpty) = true := by
    cases h : s.takeWhile (fun c => !delim.contains c) with
    | nil => exact absurd h hne
    | cons a t => rfl
  cases hrest : s.dropWhile (fun c => !delim.contains c) with
  | nil =>
    rw [hrest, List.append_nil] at hsplit
    have h1 : runs delim s = [s] := by
      have := List.splitOnP_eq_single (fun c => delim.contains c) s (by rw [← hsplit]; exact htok)
      rw [hsplit] at hne2
      simp only [runs, this, List.filter_cons, hne2, if_true, List.filter_nil]
    rw [h1, hsplit]
    simp [runs_nil]
  | cons sep rest1 =>
    have hsep : delim.contains sep = true := by
      have := dropWhile_head_false s sep rest1 hrest
      simpa using this
    rw [hrest] at hsplit
    have h1 := List.splitOnP_first (fun c => delim.contains c) _ htok sep hsep rest1
    rw [hsplit] at h1
    simp only [runs, h1, List.filter_cons, hne2, if_true, List.drop_succ_cons, List.drop_zero]

/-- With enough calls, `strtok_r` returns exactly the maximal runs of the
buffer. -/
theorem strtokAll_eq_runs (delim : List Char) :
    ∀ (fuel : Nat) (save : Str), save.length ≤ fuel →
      strtokAll delim fuel save = runs delim save := by
  intro fuel
  induction fuel with
  | zero =>
    intro save h
    have : save = [] := List.length_eq_zero.mp (by omega)
    subst this
    simp [strtokAll, runs_nil]
  | succ fuel ih =>
    intro save h
    rw [← runs_dropWhile delim save]
    have hlen : (save.dropWhile (fun c => delim.contains c)).length ≤ save.length :=
      (List.dropWhile_suffix _).length_le
    cases hs1 : save.dropWhile (fun c => delim.contains c) with
    | nil =>
      simp only [strtokAll, strtok_r, hs1, List.isEmpty_nil, if_true, runs_nil]
    | cons x xs =>
      have hx : delim.contains x = false := by
        simpa using dropWhile_head_false save x xs hs1
      have hx1 : (fun c => !delim.contains c) x = true := by
        simp only [hx, Bool.not_false]
      have hne : (x :: xs).takeWhile (fun c => !delim.contains c) ≠ [] := by
        rw [@List.takeWhile_cons_of_pos _ (fun c => !delim.contains c) x xs hx1]
        simp
      rw [runs_first delim (x :: xs) hne]
      have hsave1 : (((x :: xs).dropWhile (fun c => !delim.contains c)).drop 1).length
          ≤ fuel := by
        have h1 : ((x :: xs).dropWhile (fun c => !delim.contains c)).length ≤ xs.length := by
          rw [@List.dropWhile_cons_of_pos _ (fun c => !delim.contains c) x xs hx1]
          exact (List.dropWhile_suffix _).length_le
        rw [hs1] at hlen
        simp only [List.length_cons] at hlen
        simp only [List.length_drop]
        omega
      simp only [strtokAll, strtok_r, hs1, List.isEmpty_cons, Bool.false_eq_true, if_false]
      rw [ih _ hsave1]

/-- The loop of `tokenize` applies the quote rule to each token of
`strtok_r`. -/
theorem tokenizeLoop_eq (delim : List Char) :
    ∀ (fuel : Nat) (save : Str) (acc : List Str),
      tokenizeLoop delim fuel save acc
        = acc ++ (strtokAll delim fuel save).map stripQuotes := by
  intro fuel
  induction fuel with
  | zero => intro save acc; simp [tokenizeLoop, strtokAll]
  | succ fuel ih =>
    intro save acc
    cases h : strtok_r delim save with
    | none => simp [tokenizeLoop, strtokAll, h]
    | some r =>
      obtain ⟨token, save1⟩ := r
      simp [tokenizeLoop, strtokAll, h, ih]

/-- The bytes before the first NUL are at most as many as the bytes. -/
theorem cstr_length_le (s : Str) : (cstr s).length ≤ s.length :=
  (List.takeWhile_prefix _).length_le

/-- The result of `tokenize`: the maximal runs of the C string outside the
delimiters, each passed through the quote rule. -/
theorem tokenize_eq_runs (s : Str) (delim : List Char) :
    tokenize s delim = (runs delim (cstr s)).map stripQuotes := by
  unfold tokenize
  rw [tokenizeLoop_eq, strtokAll_eq_runs delim _ _ (by have := cstr_length_le s; omega)]
  simp

/-! ## Tokenization -/

/-- A string without NUL is its own C string. -/
theorem cstr_eq_self (s : Str) (h : Char.ofNat 0 ∉ s) : cstr s = s := by
  unfold cstr
  rw [List.takeWhile_eq_self_iff]
  intro x hx
  have : x ≠ Char.ofNat 0 := fun e => h (e ▸ hx)
  simpa using this

/-- The C string holds no NUL. -/
theorem cstr_no_nul (s : Str) : Char.ofNat 0 ∉ cstr s := by
  intro h
  have := List.mem_takeWhile_imp h
  simp at this

/-- The bytes of the C string are bytes of the string. -/
theorem mem_of_mem_cstr {s : Str} {c : Char} (h : c ∈ cstr s) : c ∈ s :=
  (List.takeWhile_prefix _).subset h

/-- The quote rule of the source is the quote rule of the specification. -/
theorem stripQuotes_eq_unquote (t : Str) : stripQuotes t = unquote t := by
  unfold stripQuotes unquote
  split_ifs with h
  · simp only [substr, List.dropLast_eq_take, List.length_tail, List.drop_one]
    rfl
  · rfl

/-- The quote rule only removes bytes. -/
theorem mem_of_mem_stripQuotes {t : Str} {c : Char} (h : c ∈ stripQuotes t) : c ∈ t := by
  unfold stripQuotes at h
  split_ifs at h
  · exact List.mem_of_mem_drop (List.mem_of_mem_take h)
  · exact h

/-- Every byte of a token of `strtok_r` is a byte of the buffer and not a
delimiter. -/
theorem mem_strtokAll (delim : List Char) :
    ∀ (fuel : Nat) (save : Str), ∀ t ∈ strtokAll delim fuel save, ∀ c ∈ t,
      delim.contains c = false ∧ c ∈ save := by
  intro fuel
  induction fuel with
  | zero => intro save t ht; simp [strtokAll] at ht
  | succ fuel ih =>
    intro save t ht c hc
    unfold strtokAll strtok_r at ht
    simp only at ht
    by_cases he : (save.dropWhile (fun c => delim.contains c)).isEmpty = true
    · rw [if_pos he] at ht; simp at ht
    · rw [if_neg he] at ht
      simp only [List.mem_cons] at ht
      rcases ht with ht | ht
      · subst ht
        refine ⟨?_, (List.dropWhile_suffix _).subset ((List.takeWhile_prefix _).subset hc)⟩
        have := List.mem_takeWhile_imp hc
        simpa using this
      · obtain ⟨h1, h2⟩ := ih _ t ht c hc
        exact ⟨h1, (List.dropWhile_suffix _).subset
          ((List.dropWhile_suffix _).subset (List.mem_of_mem_drop h2))⟩

/-- Every byte of a maximal run is a byte of the string and not a delimiter. -/
theorem mem_runs (delim : List Char) (s : Str) :
    ∀ r ∈ runs delim s, ∀ c ∈ r, delim.contains c = false ∧ c ∈ s := by
  rw [← strtokAll_eq_runs delim s.length s (Nat.le_refl _)]
  exact mem_strtokAll delim s.length s

/-- C12: for every string `s` without a NUL byte, `tokenize(s, " \t")` is the
list, in order, of the maximal runs of bytes of `s` that are neither space nor
tab, where a run of length at least 2 whose first and last bytes are both `"`
or both `'` has exactly those two bytes removed and every other run is
unchanged; no token contains a space or a tab. -/
theorem tokenize_spec (s : Str) (hnul : Char.ofNat 0 ∉ s) :
    tokenize s blanks = (runs blanks s).map unquote
      ∧ ∀ t ∈ tokenize s blanks, ' ' ∉ t ∧ '\t' ∉ t := by
  have h1 : tokenize s blanks = (runs blanks s).map unquote := by
    rw [tokenize_eq_runs, cstr_eq_self s hnul]
    apply List.map_congr_left
    intro t _
    exact stripQuotes_eq_unquote t
  refine ⟨h1, ?_⟩
  intro t ht
  rw [tokenize_eq_runs, cstr_eq_self s hnul] at ht
  obtain ⟨r, hr, rfl⟩ := List.mem_map.mp ht
  have key : ∀ c ∈ stripQuotes r, blanks.contains c = false := fun c hc =>
    (mem_runs blanks s r hr c (mem_of_mem_stripQuotes hc)).1
  constructor
  · intro h
    have := key _ h
    simp [blanks] at this
  · intro h
    have := key _ h
    simp [blanks] at this

/-- C12 at a concrete input: two blanks between tokens, a quoted token, and
quotes that do not wrap a whole run. -/
theorem tokenize_spec_witness :
    tokenize [' ', 'l', 's', ' ', '\t', Char.ofNat 34, 'a', Char.ofNat 34, ' ',
        Char.ofNat 39, 'x', ' ', 'y', Char.ofNat 39] blanks
      = [['l', 's'], ['a'], [Char.ofNat 39, 'x'], ['y', Char.ofNat 39]] := by
  have h := (tokenize_spec [' ', 'l', 's', ' ', '\t', Char.ofNat 34, 'a', Char.ofNat 34, ' ',
        Char.ofNat 39, 'x', ' ', 'y', Char.ofNat 39] (by decide)).1
  rw [h]
  decide

/-! ## Executable lookup -/

/-- A non-empty string without blanks has a non-blank last byte. -/
theorem findLastNotOf_no_blank (set : List Char) :
    ∀ s : Str, s ≠ [] → (∀ x ∈ s, set.contains x = false) →
      findLastNotOf set s = some (s.length - 1) := by
  intro s
  induction s with
  | nil => intro h; exact absurd rfl h
  | cons x xs ih =>
    intro _ hall
    cases xs with
    | nil =>
      have hx : set.contains x = false := hall x (by simp)
      simp only [findLastNotOf, hx]
      simp
    | cons y t =>
      have h1 := ih (by simp) (fun z hz => hall z (List.mem_cons_of_mem _ hz))
      rw [findLastNotOf, h1]
      simp

/-- Trimming a non-empty string without blanks changes nothing. -/
theorem trimBoth_no_blank (c : Str) (hne : c ≠ [])
    (hb : ∀ x ∈ c, blanks.contains x = false) : trimBoth c = c := by
  have hl := findLastNotOf_no_blank blanks c hne hb
  cases c with
  | nil => exact absurd rfl hne
  | cons x xs =>
    have hx : blanks.contains x = false := hb x (by simp)
    have hf : findFirstNotOf blanks (x :: xs) = some 0 := by
      simp only [findFirstNotOf, hx]
      simp
    simp only [trimBoth, hf, hl, substr, List.drop_zero, List.length_cons]
    simp

/-- The loop over directories returns the first acceptable candidate. -/
theorem probeDirs_eq_find (w : World) (c : Str) :
    ∀ dirs : List Str,
      probeDirs w c dirs
        = (dirs.map (fun d => d ++ ['/'] ++ c)).find?
            (fun p => w.access (cstr p) && !containsSub "Xorg.wrap".toList p) := by
  intro dirs
  induction dirs with
  | nil => rfl
  | cons d dirs ih =>
    by_cases ha : w.access (cstr (d ++ ['/'] ++ c)) = true
    · by_cases hx : containsSub "Xorg.wrap".toList (d ++ ['/'] ++ c) = true
      · simp only [probeDirs, List.map_cons, List.find?_cons, ha, hx, if_true,
          Bool.not_true, Bool.and_false, ih]
      · simp only [probeDirs, List.map_cons, List.find?_cons, ha, hx, if_true,
          Bool.false_eq_true, if_false, Bool.not_false, Bool.and_true]
    · simp only [probeDirs, List.map_cons, List.find?_cons, ha, Bool.false_eq_true,
        if_false, Bool.false_and, ih]

/-- Searching candidates without NUL, `access` sees each candidate itself. -/
theorem find_cstr_eq (w : World) (c : Str) (dirs : List Str)
    (hd : ∀ d ∈ dirs, Char.ofNat 0 ∉ d) (hc : Char.ofNat 0 ∉ c) :
    (dirs.map (fun d => d ++ ['/'] ++ c)).find?
        (fun p => w.access (cstr p) && !containsSub "Xorg.wrap".toList p)
      = (dirs.map (fun d => d ++ ['/'] ++ c)).find?
        (fun p => w.access p && !containsSub "Xorg.wrap".toList p) := by
  induction dirs with
  | nil => rfl
  | cons d dirs ih =>
    have h0 : Char.ofNat 0 ∉ d ++ ['/'] ++ c := by
      have := hd d (by simp)
      simp only [List.mem_append, List.mem_singleton, not_or]
      exact ⟨⟨this, by decide⟩, hc⟩
    simp only [List.map_cons, List.find?_cons, cstr_eq_self _ h0]
    rw [ih (fun x hx => hd x (List.mem_cons_of_mem _ hx))]

/-- No directory taken from `PATH` holds a NUL. -/
theorem tokenize_no_nul (s : Str) (delim : List Char) :
    ∀ t ∈ tokenize s delim, Char.ofNat 0 ∉ t := by
  intro t ht h
  rw [tokenize_eq_runs] at ht
  obtain ⟨r, hr, rfl⟩ := List.mem_map.mp ht
  exact cstr_no_nul s (mem_runs delim (cstr s) r hr _ (mem_of_mem_stripQuotes h)).2

/-- C14 (the code with `PATH` set to `"/opt"`, quotes included, and only
`/opt/tool` executable): `findExecutablePath` answers `/opt/tool`, a path that
is not `d + "/" + c` for any directory `d` of the colon-delimited `PATH`, for
which the specified answer would be the empty string. -/
theorem findExecutablePath_quoted_path :
    findExecutablePath quotedPathWorld "tool".toList = "/opt/tool".toList
      ∧ firstExecutable quotedPathWorld (commonDirs ++ colonDirs quotedPathWorld)
          "tool".toList = [] := by
  decide

/-- C14, amended: for every program token `c` (not empty, without space, tab or
NUL), every executability predicate and every value of `PATH`: if `c` contains
`/`, `findExecutablePath` returns `c`; otherwise it returns the first path, in
the order `/bin/c`, `/usr/bin/c`, `/usr/local/bin/c` and then `d + "/" + c` for
each directory `d` that `tokenize(PATH, ":")` yields (the non-empty pieces
between colons, a piece wrapped in matching quotes taken without them), that is
executable and does not contain `Xorg.wrap`, and the empty string when there is
no such path. -/
theorem findExecutablePath_spec (w : World) (c : Str) (hne : c ≠ [])
    (hsp : ' ' ∉ c) (htab : '\t' ∉ c) (hnul : Char.ofNat 0 ∉ c) :
    ('/' ∈ c → findExecutablePath w c = c)
      ∧ ('/' ∉ c → findExecutablePath w c = firstExecutable w (commonDirs ++ pathDirs w) c)
      ∧ commonDirs = ["/bin".toList, "/usr/bin".toList, "/usr/local/bin".toList] := by
  have hb : ∀ x ∈ c, blanks.contains x = false := by
    intro x hx
    have h1 : x ≠ ' ' := fun e => hsp (e ▸ hx)
    have h2 : x ≠ '\t' := fun e => htab (e ▸ hx)
    simp [blanks, h1, h2]
  have htrim := trimBoth_no_blank c hne hb
  have hemp : c.isEmpty = false := by cases c <;> simp_all
  refine ⟨?_, ?_, rfl⟩
  · intro hs
    have : c.contains '/' = true := by simpa using hs
    simp only [findExecutablePath, htrim, hemp, this, Bool.false_eq_true, if_false, if_true]
  · intro hs
    have hcont : c.contains '/' = false := by simpa using hs
    have hcommon : ∀ d ∈ commonDirs, Char.ofNat 0 ∉ d := by decide
    simp only [findExecutablePath, htrim, hemp, hcont, Bool.false_eq_true, if_false,
      firstExecutable, List.map_append, List.find?_append, probeDirs_eq_find]
    rw [find_cstr_eq w c commonDirs hcommon hnul]
    cases h1 : (commonDirs.map (fun d => d ++ ['/'] ++ c)).find?
        (fun p => w.access p && !containsSub "Xorg.wrap".toList p) with
    | some p => simp
    | none =>
      simp only [Option.none_or]
      cases hp : w.pathEnv with
      | none => simp [pathDirs, hp]
      | some pathStr =>
        simp only [pathDirs, hp]
        rw [find_cstr_eq w c _ (tokenize_no_nul pathStr [':']) hnul, tokenize_eq_runs]
        have hmap : (runs [':'] (cstr pathStr)).map stripQuotes
            = (runs [':'] (cstr pathStr)).map unquote :=
          List.map_congr_left (fun t _ => stripQuotes_eq_unquote t)
        rw [hmap]
        cases (((runs [':'] (cstr pathStr)).map unquote).map (fun d => d ++ ['/'] ++ c)).find?
          (fun p => w.access p && !containsSub "Xorg.wrap".toList p) <;> rfl

/-- C14, amended, at a concrete input: `/opt/Xorg.wrap/tool` is executable but
skipped, and `/usr/games/tool` is the answer. -/
theorem findExecutablePath_spec_witness :
    findExecutablePath gamesWorld "tool".toList
      = firstExecutable gamesWorld (commonDirs ++ pathDirs gamesWorld) "tool".toList :=
  (findExecutablePath_spec gamesWorld "tool".toList (by decide) (by decide) (by decide)
    (by decide)).2.1 (by decide)

/-! ## The arithmetic evaluator on well-formed expressions -/

theorem parseTerm_succ (fuel : Nat) (s : Str) :
    parseTerm (fuel + 1) s = termFrom fuel s := by
  rw [parseTerm]; rfl

theorem parseExpression_succ (fuel : Nat) (s : Str) :
    parseExpression (fuel + 1) s = expressionFrom fuel s := by
  rw [parseExpression]; rfl

/-- The loop of `parseTerm` returns when the input does not go on with `*` or
`/`. -/
theorem termLoop_stop (fuel : Nat) (v : Int) (rest : Str) (hm : NoMulHead rest) :
    termLoop (fuel + 1) v rest = .ok (v, rest) := by
  cases rest with
  | nil => rw [termLoop]
  | cons c cs =>
    have h := hm c (by simp)
    rw [termLoop]
    simp [h.1, h.2]

/-- The loop of `parseExpression` returns when the input does not go on with
`+` or `-`. -/
theorem expressionLoop_stop (fuel : Nat) (v : Int) (rest : Str) (ha : NoAddHead rest) :
    expressionLoop (fuel + 1) v rest = .ok (v, rest) := by
  cases rest with
  | nil => rw [expressionLoop]
  | cons c cs =>
    have h := ha c (by simp)
    rw [expressionLoop]
    simp [h.1, h.2]

/-- A decimal digit is at least the byte `0`. -/
theorem digit_ge (c : Char) (h : c.isDigit = true) : 48 ≤ c.toNat := by
  simp only [Char.isDigit, Bool.and_eq_true, decide_eq_true_eq] at h
  exact h.1

/-- The range test of `long long`, as two inequalities. -/
theorem inLongLong_iff (v : Int) :
    inLongLong v = true ↔ (-9223372036854775808 ≤ v ∧ v < 9223372036854775808) := by
  simp only [inLongLong, Bool.and_eq_true, decide_eq_true_eq]
  norm_num

theorem checkLL_ok (v : Int) (h : inLongLong v = true) : checkLL v = .ok v := by
  simp [checkLL, h]

/-- Reading digits never makes the number smaller. -/
theorem foldl_digits_mono :
    ∀ (ds : Str) (acc : Int), (∀ c ∈ ds, c.isDigit = true) → 0 ≤ acc →
      acc ≤ ds.foldl (fun a c => a * 10 + ((c.toNat : Int) - 48)) acc := by
  intro ds
  induction ds with
  | nil => intro acc _ _; simp
  | cons d ds ih =>
    intro acc hall hacc
    have hd := digit_ge d (hall d (by simp))
    have h1 : 0 ≤ acc * 10 + ((d.toNat : Int) - 48) := by omega
    have h2 := ih (acc * 10 + ((d.toNat : Int) - 48))
      (fun c hc => hall c (List.mem_cons_of_mem _ hc)) h1
    simp only [List.foldl_cons]
    omega

/-- The digit loop of `parseFactor` reads a digit string that is followed by
something else, when the number it denotes fits. -/
theorem digitsLoop_digits :
    ∀ (ds : Str) (acc : Int) (valid : Bool) (rest : Str),
      (∀ c ∈ ds, c.isDigit = true) → NoDigitHead rest → 0 ≤ acc →
      inLongLong (ds.foldl (fun a c => a * 10 + ((c.toNat : Int) - 48)) acc) = true →
      digitsLoop acc valid (ds ++ rest)
        = .ok (ds.foldl (fun a c => a * 10 + ((c.toNat : Int) - 48)) acc,
            valid || !ds.isEmpty, rest) := by
  intro ds
  induction ds with
  | nil =>
    intro acc valid rest _ hrest _ _
    cases rest with
    | nil => simp [digitsLoop]
    | cons c cs =>
      have hc : c.isDigit = false := hrest c (by simp)
      simp [digitsLoop, hc]
  | cons d ds ih =>
    intro acc valid rest hall hrest hacc hfit
    have hdig : d.isDigit = true := hall d (by simp)
    have hd := digit_ge d hdig
    have hall1 : ∀ c ∈ ds, c.isDigit = true := fun c hc => hall c (List.mem_cons_of_mem _ hc)
    have h1 : 0 ≤ acc * 10 + ((d.toNat : Int) - 48) := by omega
    have hmono := foldl_digits_mono ds (acc * 10 + ((d.toNat : Int) - 48)) hall1 h1
    simp only [List.foldl_cons] at hfit
    have hfit1 : inLongLong (acc * 10 + ((d.toNat : Int) - 48)) = true := by
      rw [inLongLong_iff] at hfit ⊢
      omega
    simp only [List.cons_append, digitsLoop, hdig, if_true, checkLL_ok _ hfit1,
      List.foldl_cons, List.append_eq]
    rw [ih _ true rest hall1 hrest h1 hfit]
    simp

/-- The function `parseFactor` reads a literal that is followed by something
other than a digit, when its magnitude fits. -/
theorem parseFactor_lit (fuel : Nat) (negative : Bool) (ds rest : Str)
    (hne : ds ≠ []) (hall : ∀ c ∈ ds, c.isDigit = true) (hrest : NoDigitHead rest)
    (hfit : inLongLong (decimalValue ds) = true) :
    parseFactor (fuel + 1) ((AExpr.lit negative ds).text ++ rest)
      = .ok ((AExpr.lit negative ds).value, rest) := by
  have hloop := digitsLoop_digits ds 0 false rest hall hrest (Int.le_refl 0) hfit
  have hval : (false || !ds.isEmpty) = true := by cases ds <;> simp_all
  rw [hval] at hloop
  cases negative with
  | true =>
    have hsp : isspace '-' = false := by decide
    simp only [AExpr.text, AExpr.value, if_true, List.singleton_append, List.cons_append,
      parseFactor, List.dropWhile_cons, hsp, Bool.false_eq_true, if_false]
    simp only [show ('-' : Char) ≠ '(' by decide, if_false, decide_True, if_true,
      List.nil_append, List.append_eq, hloop, Bool.not_true, Bool.false_eq_true, decimalValue]
  | false =>
    cases ds with
    | nil => exact absurd rfl hne
    | cons d ds1 =>
      have hdig : d.isDigit = true := hall d (by simp)
      have hsp : isspace d = false := by
        cases h : isspace d with
        | false => rfl
        | true =>
          simp only [isspace, Bool.or_eq_true, decide_eq_true_eq] at h
          rcases h with ((((h | h) | h) | h) | h) | h <;> (subst h; exact absurd hdig (by decide))
      have hp : d ≠ '(' := by rintro rfl; exact absurd hdig (by decide)
      have hm : d ≠ '-' := by rintro rfl; exact absurd hdig (by decide)
      simp only [AExpr.text, AExpr.value, Bool.false_eq_true, if_false, List.nil_append,
        List.cons_append, parseFactor, List.dropWhile_cons, hsp]
      simp only [hp, if_false, hm, decide_False, Bool.false_eq_true]
      rw [← List.cons_append, hloop]
      simp only [Bool.not_true, Bool.false_eq_true, if_false, decimalValue]

theorem termLoop_mul (fuel : Nat) (result f : Int) (cs s1 : Str)
    (hf : parseFactor fuel cs = .ok (f, s1)) (hfit : inLongLong (result * f) = true) :
    termLoop (fuel + 1) result ('*' :: cs) = termLoop fuel (result * f) s1 := by
  rw [termLoop]
  simp only [if_true, hf, checkLL_ok _ hfit]

theorem termLoop_div (fuel : Nat) (result d : Int) (cs s1 : Str)
    (hf : parseFactor fuel cs = .ok (d, s1)) (hd : d ≠ 0)
    (hfit : inLongLong (Int.tdiv result d) = true) :
    termLoop (fuel + 1) result ('/' :: cs) = termLoop fuel (Int.tdiv result d) s1 := by
  rw [termLoop]
  simp only [show ('/' : Char) ≠ '*' by decide, if_false, if_true, hf, hd,
    checkLL_ok _ hfit]

theorem expressionLoop_add (fuel : Nat) (result t : Int) (cs s1 : Str)
    (ht : parseTerm fuel cs = .ok (t, s1)) (hfit : inLongLong (result + t) = true) :
    expressionLoop (fuel + 1) result ('+' :: cs) = expressionLoop fuel (result + t) s1 := by
  rw [expressionLoop]
  simp only [if_true, ht, checkLL_ok _ hfit]

theorem expressionLoop_sub (fuel : Nat) (result t : Int) (cs s1 : Str)
    (ht : parseTerm fuel cs = .ok (t, s1)) (hfit : inLongLong (result - t) = true) :
    expressionLoop (fuel + 1) result ('-' :: cs) = expressionLoop fuel (result - t) s1 := by
  rw [expressionLoop]
  simp only [show ('-' : Char) ≠ '+' by decide, if_false, if_true, ht, checkLL_ok _ hfit]

theorem parseFactor_paren (fuel : Nat) (v : Int) (cs s2 : Str)
    (he : parseExpression fuel cs = .ok (v, ')' :: s2)) :
    parseFactor (fuel + 1) ('(' :: cs) = .ok (v, s2) := by
  have hsp : isspace '(' = false := by decide
  simp only [parseFactor, List.dropWhile_cons, hsp, Bool.false_eq_true, if_false, if_true,
    he]

/-- The text of a well-formed expression is not empty. -/
theorem text_length_pos : ∀ e : AExpr, e.wellFormed = true → 1 ≤ e.text.length := by
  intro e
  cases e with
  | lit negative ds =>
    intro h
    simp only [AExpr.wellFormed, Bool.and_eq_true, Bool.not_eq_true'] at h
    have : ds ≠ [] := by intro e; rw [e] at h; simp at h
    have hl : 1 ≤ ds.length := by
      cases ds with
      | nil => exact absurd rfl this
      | cons a t => simp
    simp only [AExpr.text, List.length_append]
    omega
  | paren e => intro _; simp [AExpr.text]
  | bin op l r =>
    intro _
    simp only [AExpr.text, List.length_append, List.length_singleton]
    omega

theorem termChain_of_factor (e : AExpr) (hwf : e.wellFormed = true) (h : FactorReads e) :
    TermChainReads e := by
  intro rest fuel hd hfuel
  have hpos := text_length_pos e hwf
  refine ⟨fuel, ?_, ?_⟩
  · simp only [List.length_append] at hfuel; omega
  · simp only [termFrom, h rest fuel hd hfuel]

theorem term_of_termChain (e : AExpr) (h : TermChainReads e) : TermReads e := by
  intro rest fuel hd hm hfuel
  obtain ⟨m, rfl⟩ : ∃ m, fuel = m + 1 := ⟨fuel - 1, by omega⟩
  obtain ⟨fuel1, h1, h2⟩ := h rest m hd (by omega)
  obtain ⟨k, rfl⟩ : ∃ k, fuel1 = k + 1 := ⟨fuel1 - 1, by omega⟩
  rw [parseTerm_succ, h2, termLoop_stop k _ rest hm]

theorem exprChain_of_term (e : AExpr) (hwf : e.wellFormed = true) (h : TermReads e) :
    ExprChainReads e := by
  intro rest fuel hd hm hfuel
  have hpos := text_length_pos e hwf
  refine ⟨fuel, ?_, ?_⟩
  · simp only [List.length_append] at hfuel; omega
  · simp only [expressionFrom, h rest fuel hd hm hfuel]

theorem expression_of_exprChain (e : AExpr) (h : ExprChainReads e) : ExpressionReads e := by
  intro rest fuel hd hm ha hfuel
  obtain ⟨m, rfl⟩ : ∃ m, fuel = m + 1 := ⟨fuel - 1, by omega⟩
  obtain ⟨fuel1, h1, h2⟩ := h rest m hd hm (by omega)
  obtain ⟨k, rfl⟩ : ∃ k, fuel1 = k + 1 := ⟨fuel1 - 1, by omega⟩
  rw [parseExpression_succ, h2, expressionLoop_stop k _ rest ha]

/-- The byte of an operator is not a digit. -/
theorem noDigitHead_op (op : BinOp) (s : Str) : NoDigitHead (op.char :: s) := by
  intro c hc
  simp only [List.head?_cons, Option.mem_def, Option.some.injEq] at hc
  subst hc
  cases op <;> decide

/-- The three levels of the evaluator read every well-formed, safe expression:
`parseFactor` a literal or a parenthesis, the loop of `parseTerm` a chain of
`*` and `/`, the loop of `parseExpression` a chain of `+` and `-`. -/
theorem reads_all :
    ∀ e : AExpr, e.wellFormed = true → e.safe = true →
      (e.level = 0 → FactorReads e) ∧ (e.level ≤ 1 → TermChainReads e) ∧ ExprChainReads e := by
  intro e
  induction e with
  | lit negative ds =>
    intro hwf hsafe
    have hwf0 := hwf
    simp only [AExpr.wellFormed, Bool.and_eq_true, Bool.not_eq_true', List.all_eq_true] at hwf
    have hne : ds ≠ [] := by intro e; rw [e] at hwf; simp at hwf
    have hF : FactorReads (.lit negative ds) := by
      intro rest fuel hd hfuel
      obtain ⟨m, rfl⟩ : ∃ m, fuel = m + 1 := ⟨fuel - 1, by omega⟩
      exact parseFactor_lit m negative ds rest hne hwf.2 hd hsafe
    have hT := termChain_of_factor _ hwf0 hF
    exact ⟨fun _ => hF, fun _ => hT, exprChain_of_term _ hwf0 (term_of_termChain _ hT)⟩
  | paren e ih =>
    intro hwf hsafe
    have hE := expression_of_exprChain e (ih hwf hsafe).2.2
    have hF : FactorReads (.paren e) := by
      intro rest fuel hd hfuel
      obtain ⟨m, rfl⟩ : ∃ m, fuel = m + 1 := ⟨fuel - 1, by omega⟩
      have hfuel1 : 3 * (e.text ++ ')' :: rest).length + 3 ≤ m := by
        simp only [AExpr.text, List.length_append, List.length_cons, List.length_nil]
          at hfuel ⊢
        omega
      have h1 := hE (')' :: rest) m (by intro c hc; simp at hc; subst hc; decide)
        (by intro c hc; simp at hc; subst hc; decide)
        (by intro c hc; simp at hc; subst hc; decide) hfuel1
      have htxt : (AExpr.paren e).text ++ rest = '(' :: (e.text ++ ')' :: rest) := by
        simp [AExpr.text]
      rw [htxt]
      exact parseFactor_paren m _ _ rest h1
    have hT := termChain_of_factor _ hwf hF
    exact ⟨fun _ => hF, fun _ => hT, exprChain_of_term _ hwf (term_of_termChain _ hT)⟩
  | bin op l r ihl ihr =>
    intro hwf hsafe
    have hwf0 := hwf
    simp only [AExpr.wellFormed, Bool.and_eq_true] at hwf
    obtain ⟨⟨hwl, hwr⟩, hlev⟩ := hwf
    simp only [AExpr.safe, Bool.and_eq_true, Bool.or_eq_true, decide_eq_true_eq] at hsafe
    obtain ⟨⟨⟨hsl, hsr⟩, hdiv⟩, hfit⟩ := hsafe
    have hL := ihl hwl hsl
    have hR := ihr hwr hsr
    have htxt : ∀ rest : Str,
        (AExpr.bin op l r).text ++ rest = l.text ++ op.char :: (r.text ++ rest) := by
      intro rest; simp [AExpr.text]
    by_cases hm : op.isMul = true
    · simp only [hm, if_true, Bool.and_eq_true, decide_eq_true_eq] at hlev
      have hT : TermChainReads (.bin op l r) := by
        intro rest fuel hd hfuel
        rw [htxt]
        have hfuel1 : 3 * (l.text ++ op.char :: (r.text ++ rest)).length + 1 ≤ fuel := by
          rw [← htxt]; exact hfuel
        obtain ⟨fuel1, h1, h2⟩ := hL.2.1 hlev.1 (op.char :: (r.text ++ rest)) fuel
          (noDigitHead_op op _) hfuel1
        obtain ⟨m, rfl⟩ : ∃ m, fuel1 = m + 1 := ⟨fuel1 - 1, by omega⟩
        have hrf := hR.1 hlev.2 rest m hd (by
          simp only [List.length_cons, List.length_append] at h1 ⊢; omega)
        refine ⟨m, by simp only [List.length_cons, List.length_append] at h1; omega, ?_⟩
        rw [h2]
        cases op with
        | add => simp [BinOp.isMul] at hm
        | sub => simp [BinOp.isMul] at hm
        | mul => exact termLoop_mul m _ _ _ _ hrf hfit
        | div =>
          have hnz : r.value ≠ 0 := by
            rcases hdiv with h | h
            · exact absurd rfl h
            · exact h
          exact termLoop_div m _ _ _ _ hrf hnz hfit
      have hlevel : (AExpr.bin op l r).level = 1 := by simp [AExpr.level, hm]
      exact ⟨fun h => by omega, fun _ => hT,
        exprChain_of_term _ hwf0 (term_of_termChain _ hT)⟩
    · simp only [hm, Bool.false_eq_true, if_false, decide_eq_true_eq] at hlev
      have hlevel : (AExpr.bin op l r).level = 2 := by simp [AExpr.level, hm]
      refine ⟨fun h => by omega, fun h => by omega, ?_⟩
      intro rest fuel hd hmul hfuel
      rw [htxt]
      have hfuel1 : 3 * (l.text ++ op.char :: (r.text ++ rest)).length + 2 ≤ fuel := by
        rw [← htxt]; exact hfuel
      have hopm : NoMulHead (op.char :: (r.text ++ rest)) := by
        intro c hc
        simp only [List.head?_cons, Option.mem_def, Option.some.injEq] at hc
        subst hc
        cases op with
        | add => decide
        | sub => decide
        | mul => simp [BinOp.isMul] at hm
        | div => simp [BinOp.isMul] at hm
      obtain ⟨fuel1, h1, h2⟩ := hL.2.2 (op.char :: (r.text ++ rest)) fuel
        (noDigitHead_op op _) hopm hfuel1
      obtain ⟨m, rfl⟩ : ∃ m, fuel1 = m + 1 := ⟨fuel1 - 1, by omega⟩
      have hrt := term_of_termChain r (hR.2.1 hlev) rest m hd hmul (by
        simp only [List.length_cons, List.length_append] at h1 ⊢; omega)
      refine ⟨m, by simp only [List.length_cons, List.length_append] at h1; omega, ?_⟩
      rw [h2]
      cases op with
      | add => exact expressionLoop_add m _ _ _ _ hrt hfit
      | sub => exact expressionLoop_sub m _ _ _ _ hrt hfit
      | mul => simp [BinOp.isMul] at hm
      | div => simp [BinOp.isMul] at hm

/-- C17: for every well-formed arithmetic expression without whitespace
(decimal literals with an optional minus, binary `+ - * /`, parentheses) in
which no divisor is zero and every intermediate value fits in a signed 64-bit
integer, `evaluateArithmetic` on its text returns (the recursion counter of
the embedding does not run out) and the result is the value of the expression
under the usual rules: `*` and `/` bind tighter than `+` and `-`, operators of
equal precedence associate to the left, parentheses group, and division
truncates toward zero. -/
theorem evaluateArithmetic_value (e : AExpr) (hwf : e.wellFormed = true)
    (hsafe : e.safe = true) :
    evaluateArithmetic e.text = .ok e.value := by
  have h := expression_of_exprChain e (reads_all e hwf hsafe).2.2 [] (3 * e.text.length + 3)
    (by intro c hc; simp at hc) (by intro c hc; simp at hc) (by intro c hc; simp at hc)
    (by simp)
  rw [List.append_nil] at h
  simp only [evaluateArithmetic, h]

/-- C17 at the four expressions `2+3*4`, `8-3-2`, `(2+3)*4` and `-7/2`. -/
theorem evaluateArithmetic_value_witness :
    evaluateArithmetic "2+3*4".toList = .ok 14
      ∧ evaluateArithmetic "8-3-2".toList = .ok 3
      ∧ evaluateArithmetic "(2+3)*4".toList = .ok 20
      ∧ evaluateArithmetic "-7/2".toList = .ok (-3) :=
  ⟨evaluateArithmetic_value sumOfProduct (by decide) (by decide),
   evaluateArithmetic_value leftDifference (by decide) (by decide),
   evaluateArithmetic_value groupedProduct (by decide) (by decide),
   evaluateArithmetic_value negativeQuotient (by decide) (by decide)⟩

/-! ## The statements of a line -/

/-- The index `find_first_not_of` returns is where the leading bytes of the
set end. -/
theorem findFirstNotOf_spec (set : List Char) :
    ∀ s : Str,
      (findFirstNotOf set s = none → s.dropWhile (fun c => set.contains c) = [])
        ∧ (∀ k, findFirstNotOf set s = some k →
            s.drop k = s.dropWhile (fun c => set.contains c) ∧ k < s.length) := by
  intro s
  induction s with
  | nil => simp [findFirstNotOf]
  | cons c cs ih =>
    by_cases hc : set.contains c = true
    · have hdw : (c :: cs).dropWhile (fun c => set.contains c)
          = cs.dropWhile (fun c => set.contains c) :=
        @List.dropWhile_cons_of_pos _ (fun c => set.contains c) c cs hc
      rw [hdw]
      simp only [findFirstNotOf, hc, if_true]
      constructor
      · intro h
        cases h1 : findFirstNotOf set cs with
        | none => exact ih.1 h1
        | some k => rw [h1] at h; simp at h
      · intro k h
        cases h1 : findFirstNotOf set cs with
        | none => rw [h1] at h; simp at h
        | some k1 =>
          rw [h1] at h
          simp only [Option.map_some', Option.some.injEq] at h
          subst h
          obtain ⟨e1, e2⟩ := ih.2 k1 h1
          exact ⟨by simpa using e1, by simp only [List.length_cons]; omega⟩
    · have hdw : (c :: cs).dropWhile (fun c => set.contains c) = c :: cs :=
        @List.dropWhile_cons_of_neg _ (fun c => set.contains c) c cs hc
      rw [hdw]
      simp only [findFirstNotOf, hc, Bool.false_eq_true, if_false]
      constructor
      · intro h; simp at h
      · intro k h
        simp only [Option.some.injEq] at h
        subst h
        simp

/-- The function `find_last_not_of` on a string with one more byte at its end. -/
theorem findLastNotOf_concat (set : List Char) (x : Char) :
    ∀ l : Str,
      findLastNotOf set (l ++ [x])
        = if set.contains x then findLastNotOf set l else some l.length := by
  intro l
  induction l with
  | nil =>
    by_cases hx : set.contains x = true <;> simp [findLastNotOf, hx]
  | cons c cs ih =>
    simp only [List.cons_append, findLastNotOf, List.append_eq, ih]
    by_cases hx : set.contains x = true
    · simp only [hx, if_true]
    · simp only [hx, Bool.false_eq_true, if_false, List.length_cons]

/-- The index `find_last_not_of` returns is where the trailing bytes of the set
begin. -/
theorem findLastNotOf_spec (set : List Char) :
    ∀ s : Str,
      (findLastNotOf set s = none → s.rdropWhile (fun c => set.contains c) = [])
        ∧ (∀ k, findLastNotOf set s = some k →
            s.take (k + 1) = s.rdropWhile (fun c => set.contains c) ∧ k < s.length) := by
  intro s
  induction s using List.reverseRecOn with
  | nil => simp [findLastNotOf]
  | append_singleton l x ih =>
    rw [findLastNotOf_concat, List.rdropWhile_concat]
    by_cases hx : set.contains x = true
    · simp only [hx, if_true]
      refine ⟨ih.1, ?_⟩
      intro k h
      obtain ⟨e1, e2⟩ := ih.2 k h
      refine ⟨?_, by simp only [List.length_append, List.length_singleton]; omega⟩
      rw [List.take_append_of_le_length (by omega), e1]
    · simp only [hx, Bool.false_eq_true, if_false]
      constructor
      · intro h; simp at h
      · intro k h
        simp only [Option.some.injEq] at h
        subst h
        exact ⟨by simp, by simp⟩

/-- The trimming at the head of the statement loop: a piece made of spaces and
tabs only is left as it is, every other piece loses its leading and trailing
spaces and tabs. -/
theorem trimStatement_eq (s : Str) :
    trimStatement s
      = if s.dropWhile (fun c => blanks.contains c) = [] then s else trimSpec s := by
  have hF := findFirstNotOf_spec blanks s
  cases h1 : findFirstNotOf blanks s with
  | none =>
    have hd := hF.1 h1
    have hall : ∀ x ∈ s, (fun c => blanks.contains c) x = true :=
      List.dropWhile_eq_nil_iff.mp hd
    have hr : s.rdropWhile (fun c => blanks.contains c) = [] :=
      List.rdropWhile_eq_nil_iff.mpr hall
    have h2 : findLastNotOf blanks s = none := by
      cases h : findLastNotOf blanks s with
      | none => rfl
      | some k =>
        obtain ⟨e1, e2⟩ := (findLastNotOf_spec blanks s).2 k h
        rw [hr] at e1
        have : (s.take (k + 1)).length = 0 := by rw [e1]; rfl
        simp only [List.length_take] at this
        omega
    simp only [trimStatement, h1, h2, hd, if_true]
  | some k =>
    obtain ⟨e1, e2⟩ := hF.2 k h1
    have hne : s.dropWhile (fun c => blanks.contains c) ≠ [] := by
      rw [← e1]
      intro h
      have : (s.drop k).length = 0 := by rw [h]; rfl
      simp only [List.length_drop] at this
      omega
    simp only [trimStatement, h1, e1, if_neg hne, trimSpec]
    cases h2 : findLastNotOf blanks (s.dropWhile (fun c => blanks.contains c)) with
    | none =>
      have hr := (findLastNotOf_spec blanks _).1 h2
      have hall := List.rdropWhile_eq_nil_iff.mp hr
      cases hs1 : s.dropWhile (fun c => blanks.contains c) with
      | nil => exact absurd hs1 hne
      | cons a t =>
        have hfalse := dropWhile_head_false s a t hs1
        have htrue := hall a (by rw [hs1]; simp)
        simp only at hfalse htrue
        rw [hfalse] at htrue
        exact absurd htrue (by decide)
    | some k2 =>
      exact ((findLastNotOf_spec blanks _).2 k2 h2).1

/-- An index is found exactly when some byte is outside the set. -/
theorem findFirstNotOf_isSome (set : List Char) (s : Str) :
    (findFirstNotOf set s).isSome = s.any (fun c => !set.contains c) := by
  induction s with
  | nil => rfl
  | cons c cs ih =>
    by_cases hc : set.contains c = true
    · simp only [findFirstNotOf, hc, if_true, Option.isSome_map', ih, List.any_cons,
        Bool.not_true, Bool.false_or]
    · simp only [findFirstNotOf, hc, Bool.false_eq_true, if_false, Option.isSome_some,
        List.any_cons, Bool.not_false, Bool.true_or]

/-- An index is found exactly when some byte is outside the set. -/
theorem findLastNotOf_isSome (set : List Char) (s : Str) :
    (findLastNotOf set s).isSome = s.any (fun c => !set.contains c) := by
  induction s with
  | nil => rfl
  | cons c cs ih =>
    cases h : findLastNotOf set cs with
    | some k =>
      rw [h] at ih
      simp only [findLastNotOf, h, Option.isSome_some, List.any_cons, ← ih, Bool.or_true]
    | none =>
      rw [h] at ih
      by_cases hc : set.contains c = true
      · simp only [findLastNotOf, h, hc, if_true, Option.isSome_none, List.any_cons, ← ih,
          Bool.not_true, Bool.or_false]
      · simp only [findLastNotOf, h, hc, Bool.false_eq_true, if_false, Option.isSome_some,
          List.any_cons, Bool.not_false, Bool.true_or]

/-- The filter of segments leaves nothing exactly when every segment is made
of spaces and tabs only. -/
theorem filterSegments_isEmpty (segs : List Str) :
    (filterSegments segs).isEmpty
      = !segs.any (fun seg => seg.any (fun c => !blanks.contains c)) := by
  induction segs with
  | nil => rfl
  | cons seg segs ih =>
    have hf := findFirstNotOf_isSome blanks seg
    have hl := findLastNotOf_isSome blanks seg
    cases h1 : findFirstNotOf blanks seg with
    | none =>
      rw [h1] at hf
      simp only [Option.isSome_none] at hf
      simp only [filterSegments, h1, ih, List.any_cons, ← hf, Bool.false_or]
    | some start =>
      rw [h1] at hf
      simp only [Option.isSome_some] at hf
      cases h2 : findLastNotOf blanks seg with
      | none =>
        rw [h2, ← hf] at hl
        simp at hl
      | some stop =>
        have hlt := ((findFirstNotOf_spec blanks seg).2 start h1).2
        have hne : (substr seg start (stop - start + 1)).isEmpty = false := by
          cases hs : substr seg start (stop - start + 1) with
          | nil =>
            have : (substr seg start (stop - start + 1)).length = 0 := by rw [hs]; rfl
            simp only [substr, List.length_take, List.length_drop] at this
            omega
          | cons a t => rfl
        simp only [filterSegments, h1, h2, hne, Bool.not_false, if_true, List.isEmpty_cons,
          List.any_cons, ← hf, Bool.true_or, Bool.not_true]

/-- On a string without NUL, `tokenize` yields the maximal runs outside the
delimiters with the quote rule of the specification applied. -/
theorem tokenize_unquote (s : Str) (delim : List Char) (h : Char.ofNat 0 ∉ s) :
    tokenize s delim = (runs delim s).map unquote := by
  rw [tokenize_eq_runs, cstr_eq_self s h]
  exact List.map_congr_left (fun t _ => stripQuotes_eq_unquote t)

/-- A string of delimiters only has no run. -/
theorem runs_of_all_delim (delim : List Char) (s : Str)
    (h : s.dropWhile (fun c => delim.contains c) = []) : runs delim s = [] := by
  rw [← runs_dropWhile, h, runs_nil]

/-- What the loop body hands on for a piece without NUL: the trimmed piece,
when it is not empty and passes the guard. -/
theorem handedOver_eq (p : Str) (hnul : Char.ofNat 0 ∉ p) :
    handedOver p
      = if (!(trimSpec p).isEmpty && reachesExecution (trimSpec p)) = true
        then some (trimSpec p) else none := by
  by_cases hd : p.dropWhile (fun c => blanks.contains c) = []
  · have htrim : trimSpec p = [] := by simp only [trimSpec, hd, List.rdropWhile_nil]
    have hall : ∀ x ∈ p, (fun c => blanks.contains c) x = true :=
      List.dropWhile_eq_nil_iff.mp hd
    have hbar : p.contains '|' = false := by
      cases h : p.contains '|' with
      | false => rfl
      | true =>
        have hmem : '|' ∈ p := by simpa using h
        have := hall _ hmem
        simp [blanks] at this
    have htok : tokenize p blanks = [] := by
      rw [tokenize_unquote p blanks hnul, runs_of_all_delim blanks p hd]
      rfl
    simp only [handedOver, trimStatement_eq, hd, if_true, hbar, htok, htrim,
      List.isEmpty_nil, Bool.not_true, Bool.false_and, Bool.false_eq_true, if_false]
    split_ifs <;> rfl
  · have hq : trimStatement p = trimSpec p := by rw [trimStatement_eq, if_neg hd]
    have hne : trimSpec p ≠ [] := by
      intro h
      have hall := List.rdropWhile_eq_nil_iff.mp h
      cases hs1 : p.dropWhile (fun c => blanks.contains c) with
      | nil => exact hd hs1
      | cons a t =>
        have hfalse := dropWhile_head_false p a t hs1
        have htrue := hall a (by rw [hs1]; simp)
        simp only at hfalse htrue
        rw [hfalse] at htrue
        exact absurd htrue (by decide)
    have hemp : (trimSpec p).isEmpty = false := by
      cases h : trimSpec p with
      | nil => exact absurd h hne
      | cons a t => rfl
    have hnul1 : Char.ofNat 0 ∉ trimSpec p := fun h =>
      hnul ((List.dropWhile_suffix _).subset ((List.rdropWhile_prefix _ _).subset h))
    simp only [handedOver, hq, hemp, Bool.false_eq_true, if_false, Bool.not_false,
      Bool.true_and, reachesExecution, tokenize_unquote _ _ hnul1, filterSegments_isEmpty,
      Bool.not_not]
    by_cases hbar : (trimSpec p).contains '|' = true
    · simp only [hbar, if_true]
    · simp only [hbar, Bool.false_eq_true, if_false]
      cases (runs blanks (trimSpec p)).map unquote with
      | nil => simp
      | cons t0 rest =>
        simp only
        by_cases ht : t0.isEmpty = true
        · simp [ht]
        · simp [ht]

/-- While no statement ends the shell, the statements handed on are those of
the pieces `strtok_r` returns, in order. -/
theorem executedLoop_eq (ws : Nat → World) :
    ∀ (fuel : Nat) (save : Str) (j : Nat),
      (∀ r ∈ executeLoop ws fuel save j, r.status = .running) →
      executedLoop ws fuel save j = (strtokAll [';'] fuel save).filterMap handedOver := by
  intro fuel
  induction fuel with
  | zero => intro save j _; rfl
  | succ fuel ih =>
    intro save j hrun
    cases hs : strtok_r [';'] save with
    | none => simp only [executedLoop, strtokAll, hs, List.filterMap_nil]
    | some tr =>
      obtain ⟨singleCmd, save1⟩ := tr
      simp only [executeLoop, hs] at hrun
      simp only [executedLoop, strtokAll, hs, List.filterMap_cons]
      by_cases hr : (runStatement (ws j) singleCmd).status = .running
      · rw [if_pos hr] at hrun ⊢
        rw [ih save1 (j + 1) (fun r h => hrun r (List.mem_cons_of_mem _ h))]
        cases handedOver singleCmd <;> rfl
      · rw [if_neg hr] at hrun
        exact absurd (hrun _ (by simp)) hr

/-- Trimming the non-empty pieces only loses empty results. -/
theorem filter_map_trimSpec (pieces : List Str) :
    (pieces.map trimSpec).filter (fun p => !p.isEmpty)
      = ((pieces.filter (fun p => !p.isEmpty)).map trimSpec).filter (fun p => !p.isEmpty) := by
  induction pieces with
  | nil => rfl
  | cons p pieces ih =>
    cases p with
    | nil =>
      have : trimSpec [] = [] := rfl
      simp only [List.map_cons, this, List.filter_cons, List.isEmpty_nil, Bool.not_true,
        Bool.false_eq_true, if_false, ih]
    | cons a t =>
      simp only [List.map_cons, List.filter_cons, List.isEmpty_cons, Bool.not_false, if_true,
        ih]

/-- The statements handed on for a list of pieces without NUL. -/
theorem filterMap_handedOver (pieces : List Str) (hnul : ∀ p ∈ pieces, Char.ofNat 0 ∉ p) :
    pieces.filterMap handedOver
      = ((pieces.map trimSpec).filter (fun p => !p.isEmpty)).filter reachesExecution := by
  induction pieces with
  | nil => rfl
  | cons p pieces ih =>
    have ih1 := ih (fun q hq => hnul q (List.mem_cons_of_mem _ hq))
    simp only [List.filterMap_cons, handedOver_eq p (hnul p (by simp)), List.map_cons,
      List.filter_cons, ih1]
    by_cases h1 : (!(trimSpec p).isEmpty) = true
    · by_cases h2 : reachesExecution (trimSpec p) = true
      · simp only [h1, h2, Bool.and_self, if_true, List.filter_cons]
      · simp only [h1, h2, Bool.and_false, Bool.false_eq_true, if_false, if_true,
          List.filter_cons]
    · simp only [h1, Bool.false_and, Bool.false_eq_true, if_false]

/-- C11, amended: for every input line without a NUL byte in which no
statement ends the shell, the statements `executeCommand` hands to a builtin
branch, to `executeExternalCommand` or to `executePipedCommands` are exactly
the pieces of the line between semicolons, each trimmed of leading and
trailing spaces and tabs, without the pieces that are empty after trimming and
without those the guards of the loop stop (a piece with `|` whose segments are
all blank once quotes around a whole segment are removed; a piece without `|`
whose first token is empty once quotes around it are removed), each handed on
once and in left-to-right order. -/
theorem executedStatements_spec (ws : Nat → World) (line : Str)
    (hnul : Char.ofNat 0 ∉ line)
    (hrun : ∀ r ∈ executeCommand ws line, r.status = .running) :
    executedStatements ws line = (statementsSpec line).filter reachesExecution := by
  have hpred : (fun c : Char => [';'].contains c) = (fun c => c == ';') := by
    funext c
    by_cases h : c = ';' <;> simp [h]
  have hspec : statementsSpec line
      = ((runs [';'] line).map trimSpec).filter (fun p => !p.isEmpty) := by
    unfold statementsSpec
    rw [filter_map_trimSpec]
    simp only [runs, hpred]
  unfold executeCommand at hrun
  unfold executedStatements
  rw [executedLoop_eq ws _ _ 0 hrun, cstr_eq_self line hnul,
    strtokAll_eq_runs [';'] _ line (by omega), hspec]
  exact filterMap_handedOver (runs [';'] line)
    (fun p hp h => hnul ((mem_runs [';'] line p hp _ h).2))

/-- C11, amended, at the line `ls -l ;; "" ; | ;pwd`: the statements handed on
are `ls -l` and `pwd`. -/
theorem executedStatements_spec_witness :
    executedStatements (fun _ => demoWorld)
        ("ls -l ;; ".toList ++ [Char.ofNat 34, Char.ofNat 34] ++ " ; | ;pwd".toList)
      = (statementsSpec
          ("ls -l ;; ".toList ++ [Char.ofNat 34, Char.ofNat 34] ++ " ; | ;pwd".toList)).filter
          reachesExecution :=
  executedStatements_spec (fun _ => demoWorld)
    ("ls -l ;; ".toList ++ [Char.ofNat 34, Char.ofNat 34] ++ " ; | ;pwd".toList)
    (by decide) (by decide)

/-- The record `handedOver` agrees with the loop body `runStatement`: nothing
is handed on exactly when the body ends without calling anything, and a
statement handed on goes to `executePipedCommands` when it holds a `|` and to
the dispatch on its tokens otherwise. -/
theorem runStatement_handedOver (w : World) (singleCmd : Str) :
    (handedOver singleCmd = none → runStatement w singleCmd = ⟨[], .running⟩)
      ∧ (∀ cmdStr, handedOver singleCmd = some cmdStr →
          cmdStr = trimStatement singleCmd
            ∧ runStatement w singleCmd
              = if cmdStr.contains '|' then
                  executePipedCommands w (filterSegments (tokenize cmdStr ['|']))
                else dispatchTokens w (tokenize cmdStr blanks)) := by
  unfold handedOver runStatement
  simp only
  by_cases h1 : (trimStatement singleCmd).isEmpty = true
  · simp only [h1, if_true, reduceCtorEq, false_implies, implies_true, and_self]
  · simp only [h1, Bool.false_eq_true, if_false]
    by_cases h2 : (trimStatement singleCmd).contains '|' = true
    · simp only [h2, if_true]
      by_cases h3 : (!(filterSegments (tokenize (trimStatement singleCmd) ['|'])).isEmpty)
          = true
      · simp only [h3, if_true, reduceCtorEq, false_implies, Option.some.injEq, true_and]
        intro cmdStr h
        subst h
        simp only [h2, if_true, and_self]
      · simp only [h3, Bool.false_eq_true, if_false, reduceCtorEq, false_implies,
          implies_true, and_self]
    · simp only [h2, Bool.false_eq_true, if_false]
      cases htok : tokenize (trimStatement singleCmd) blanks with
      | nil =>
        simp only [dispatchTokens, reduceCtorEq, false_implies, implies_true, and_self]
      | cons t0 rest =>
        simp only
        by_cases h4 : t0.isEmpty = true
        · simp only [h4, if_true, dispatchTokens, reduceCtorEq, false_implies, implies_true,
            and_self]
        · simp only [h4, Bool.false_eq_true, if_false, reduceCtorEq, false_implies,
            Option.some.injEq, true_and]
          intro cmdStr h
          subst h
          simp only [h2, Bool.false_eq_true, if_false, htok, and_self]

/-- C11 (the code at the line `ls ; | ; pwd`): no statement ends the shell,
the piece `|` is not empty after trimming, yet only `ls` and `pwd` are handed
on; the piece `|` is dropped by the guard `!pipedCommands.empty()`. -/
theorem executedStatements_bar :
    (executeCommand (fun _ => demoWorld) "ls ; | ; pwd".toList).map (fun r => r.status)
        = [.running, .running, .running]
      ∧ executedStatements (fun _ => demoWorld) "ls ; | ; pwd".toList
        = ["ls".toList, "pwd".toList]
      ∧ statementsSpec "ls ; | ; pwd".toList = ["ls".toList, "|".toList, "pwd".toList] := by
  decide

end IShell
